import Mathlib

/-!
# Verification of `relative_verse_finder.py`

A shallow embedding of the scripture lookup tool's core: the relationship
extractor (`parse_html_data`), the bidirectional index builder
(`build_bidirectional_dict`), the two lookup strategies (`dict_lookup`,
`filter_lookup`) and the reference normalizer (`scripture_format_validator`),
together with proofs about them.

Modelling conventions:
* Python dicts are insertion-ordered association lists; `{index: [...]}`
  dicts become `List (Nat × List String)`, the scripture map becomes a list
  of `SEntry`.
* Each value list stored in the scripture map carries an allocation
  identifier `oid`, modelling Python object identity of the mutable list:
  `list.copy()` allocates a fresh id (a counter threaded through the build),
  `list.extend` mutates in place, i.e. updates every dict slot holding the
  same object id (`extendById`).
* A raised exception (`KeyError`, `ValueError`) is modelled as `none` /
  `Except.error`.
* Strings are handled at the `List Char` level for the normalizer; character
  classes are the ASCII classes the source's regexes use: `[A-Za-z0-9]`,
  `\d`, `\s` (Python's ASCII whitespace set).
-/

namespace RelVerse

/-- Python's ASCII whitespace characters, as matched by `\s` and stripped
by `str.strip()` on ASCII input. -/
def pySpace (c : Char) : Bool :=
  c = ' ' || c = '\t' || c = '\n' || c = '\r' || c = '\x0b' || c = '\x0c'

/-- The character class `[A-Za-z0-9]` used by the source's regexes. -/
def isAlnumA (c : Char) : Bool := c.isAlpha || c.isDigit

/-- `s.split(":")[0]`: everything before the first colon (the whole string
when no colon is present, which also covers the redundant
`if ":" in reference` guard in the source). -/
def splitColonHead (s : String) : String :=
  ⟨s.toList.takeWhile (fun c => c ≠ ':')⟩

/-- One slot of the scripture map: a key, the object id of its value list,
and the value list itself. -/
structure SEntry where
  key : String
  oid : Nat
  vals : List String
deriving DecidableEq, Repr

/-- Python dict access `d[i]` on an `{index: [...]}` dict (first binding);
`none` models `KeyError`. -/
def alookup (m : List (Nat × List String)) (i : Nat) : Option (List String) :=
  (m.find? (fun kv => kv.1 == i)).map (fun kv => kv.2)

/-- The keys of an `{index: [...]}` dict. -/
def akeys (m : List (Nat × List String)) : List Nat := m.map (fun kv => kv.1)

/-- `scripture_map[k]` access: first entry with the given key. -/
def smFind (m : List SEntry) (k : String) : Option SEntry :=
  m.find? (fun e => e.key == k)

/-- `lst.extend(extra)` where `lst` is the list object with id `i`: every
dict slot holding that object sees the mutation. -/
def extendById (m : List SEntry) (i : Nat) (extra : List String) : List SEntry :=
  m.map (fun e => if e.oid = i then { e with vals := e.vals ++ extra } else e)

/-- The body of both branches inside `build_bidirectional_dict`'s loops:
`if k not in scripture_map: scripture_map[k] = payload.copy()
 else: scripture_map[k].extend(payload)`.
The state is the map plus the allocation counter; a fresh insertion stores a
copy of `payload` under a fresh object id. -/
def addRef (st : List SEntry × Nat) (k : String) (payload : List String) :
    List SEntry × Nat :=
  match smFind st.1 k with
  | none => (st.1 ++ [⟨k, st.2, payload⟩], st.2 + 1)
  | some e => (extendById st.1 e.oid payload, st.2)

/-- The `for index in psalm_chapters` loop of `build_bidirectional_dict`:
for each index, `related_chapters[index]` is accessed (a missing key raises
`KeyError`, modelled by `none`), then every psalm reference gains the
related list and every related reference gains the psalm list. -/
def buildGo (related : List (Nat × List String)) :
    List (Nat × List String) → List SEntry × Nat → Option (List SEntry × Nat)
  | [], st => some st
  | (i, psaList) :: rest, st =>
    match alookup related i with
    | none => none
    | some relList =>
      let st1 := psaList.foldl (fun s p => addRef s p relList) st
      let st2 := relList.foldl (fun s r => addRef s r psaList) st1
      buildGo related rest st2

/-- `build_bidirectional_dict(psalm_chapters, related_chapters)`:
`none` models the `KeyError` raised when an index of `psalm_chapters` is
missing from `related_chapters`. -/
def build_bidirectional_dict (psalm related : List (Nat × List String)) :
    Option (List SEntry) :=
  (buildGo related psalm ([], 0)).map (fun st => st.1)

/-- `parse_html_data`, taken at the point after the two `<td>` cell regexes:
the input is the per-cell lists of link texts (`psa_match` / `rel_match`),
and the function enumerates them into the two `{index: [...]}` dicts,
prefixing each psalm numeral with `"Psa "`. -/
def parse_html_data (psalms_list related_list : List (List String)) :
    List (Nat × List String) × List (Nat × List String) :=
  (psalms_list.enum.map (fun p => (p.1, p.2.map (fun num => "Psa " ++ num))),
   related_list.enum)

/-- A Python runtime value, needed because `dict_lookup` returns a flat list
of strings on an exact match but a list of lists on a chapter-level match. -/
inductive PyVal where
  | str : String → PyVal
  | list : List PyVal → PyVal
deriving Repr

/-- `dict_lookup(reference, scripture_map)`: exact key lookup first; on a
miss, collect the value lists of every key whose text before the first colon
equals that of the reference. Note the collected value lists are returned
as-is (a list of lists), not flattened. -/
def dict_lookup (reference : String) (m : List SEntry) : PyVal :=
  match smFind m reference with
  | some e => PyVal.list (e.vals.map PyVal.str)
  | none =>
    let base := splitColonHead reference
    let found := (m.filter (fun e => splitColonHead e.key == base)).map
      (fun e => PyVal.list (e.vals.map PyVal.str))
    if found.isEmpty then PyVal.list [] else PyVal.list found

/-- The groups of `chapters` containing `reference` verbatim
(`filter(lambda kv: reference in kv[1], chapters.items())`). -/
def exactGroupMatches (reference : String) (chapters : List (Nat × List String)) :
    List (Nat × List String) :=
  chapters.filter (fun kv => reference ∈ kv.2)

/-- The groups of `chapters` containing `reference` at chapter level
(verse suffixes stripped on both sides before comparing). -/
def chapterGroupMatches (reference : String) (chapters : List (Nat × List String)) :
    List (Nat × List String) :=
  chapters.filter (fun kv => splitColonHead reference ∈ kv.2.map splitColonHead)

/-- The two accumulation loops at the end of `filter_lookup`: for every
matched group index, look the index up in the other dict and append its
list; a missing index raises `KeyError` (`none`). -/
def collectRels (ms : List (Nat × List String)) (other : List (Nat × List String)) :
    Option (List String) :=
  match ms with
  | [] => some []
  | (i, _) :: rest =>
    match alookup other i, collectRels rest other with
    | some rels, some acc => some (rels ++ acc)
    | _, _ => none

/-- `filter_lookup(reference, psalm_chapters, related_chapters)`: exact scan
of both dicts; the chapter-level rescan of both dicts happens only when both
exact scans come up empty. -/
def filter_lookup (reference : String) (psalm related : List (Nat × List String)) :
    Option (List String) :=
  let pm0 := exactGroupMatches reference psalm
  let rm0 := exactGroupMatches reference related
  let pr :=
    if pm0.isEmpty && rm0.isEmpty then
      (chapterGroupMatches reference psalm, chapterGroupMatches reference related)
    else (pm0, rm0)
  match collectRels pr.1 related, collectRels pr.2 psalm with
  | some rels1, some rels2 => some (rels1 ++ rels2)
  | _, _ => none

/-! ## The reference normalizer `scripture_format_validator`

Each regex substitution of the source is embedded as a function on
`List Char`, with the regex's greedy/backtracking behaviour resolved to
maximal-span conditions (verified against Python's `re`): an anchored
pattern applies at most once at position 0; an unanchored `re.sub` scans
left to right and restarts after each non-overlapping match. -/

theorem dropWhile_length_le {α : Type} (p : α → Bool) (l : List α) :
    (l.dropWhile p).length ≤ l.length := by
  induction l with
  | nil => simp
  | cons a l ih =>
    by_cases h : p a
    · rw [List.dropWhile_cons_of_pos h]; simp; omega
    · rw [List.dropWhile_cons_of_neg h]

/-- `str.title()`: a cased (here: ASCII alphabetic) character is
uppercased after a non-cased character and lowercased after a cased one.
The boolean argument is "previous character was cased". -/
def titleGo : Bool → List Char → List Char
  | _, [] => []
  | prev, c :: cs =>
    (if c.isAlpha then (if prev then c.toLower else c.toUpper) else c) ::
      titleGo c.isAlpha cs

/-- `str.title()` on a whole string. -/
def pyTitle (l : List Char) : List Char := titleGo false l

/-- `str.strip()`: remove leading and trailing whitespace. -/
def pyStrip (l : List Char) : List Char :=
  ((l.dropWhile pySpace).reverse.dropWhile pySpace).reverse

/-- `re.sub(r"^(\d+)\s+([A-Za-z])", r'\1\2', s)`: when the string starts
with digits, whitespace, then a letter, drop that whitespace. -/
def sub1 (l : List Char) : List Char :=
  let ds := l.takeWhile Char.isDigit
  let r := l.dropWhile Char.isDigit
  let r2 := r.dropWhile pySpace
  match ds, r.takeWhile pySpace, r2 with
  | _ :: _, _ :: _, a :: rest => if a.isAlpha then ds ++ a :: rest else l
  | _, _, _ => l

/-- `re.sub(r'(^[A-Za-z0-9]+)', lambda m: m.group(1)[:3], s)`: truncate the
leading alphanumeric run to its first 3 characters. -/
def sub2 (l : List Char) : List Char :=
  let run := l.takeWhile isAlnumA
  if run.isEmpty then l else run.take 3 ++ l.dropWhile isAlnumA

/-- `re.sub(r'\s+', ' ', s)`: replace each maximal whitespace run by a
single space. The `Nat` is recursion fuel (`≥ length` suffices, see
`sub3F_congr`); it makes the scanner structurally recursive so that the
kernel can evaluate it. -/
def sub3F : Nat → List Char → List Char
  | 0, l => l
  | _ + 1, [] => []
  | fuel + 1, c :: cs =>
    if pySpace c then ' ' :: sub3F fuel (cs.dropWhile pySpace)
    else c :: sub3F fuel cs

def sub3 (l : List Char) : List Char := sub3F l.length l

theorem sub3F_congr : ∀ (n m : Nat) (l : List Char),
    l.length ≤ n → l.length ≤ m → sub3F n l = sub3F m l := by
  intro n
  induction n with
  | zero =>
    intro m l hn _
    have : l = [] := List.eq_nil_of_length_eq_zero (Nat.le_zero.mp hn)
    subst this
    cases m <;> rfl
  | succ n ih =>
    intro m l hn hm
    cases m with
    | zero =>
      have : l = [] := List.eq_nil_of_length_eq_zero (Nat.le_zero.mp hm)
      subst this
      rfl
    | succ m =>
      cases l with
      | nil => rfl
      | cons c cs =>
        simp only [List.length_cons, Nat.succ_le_succ_iff] at hn hm
        unfold sub3F
        by_cases h : pySpace c
        · rw [if_pos h, if_pos h,
            ih m _ (Nat.le_trans (dropWhile_length_le pySpace cs) hn)
              (Nat.le_trans (dropWhile_length_le pySpace cs) hm)]
        · rw [if_neg h, if_neg h, ih m cs hn hm]

theorem sub3_nil : sub3 [] = [] := rfl

theorem sub3_cons (c : Char) (cs : List Char) :
    sub3 (c :: cs) =
      if pySpace c then ' ' :: sub3 (cs.dropWhile pySpace) else c :: sub3 cs := by
  show (if pySpace c then ' ' :: sub3F cs.length (cs.dropWhile pySpace)
        else c :: sub3F cs.length cs) = _
  by_cases h : pySpace c
  · rw [if_pos h, if_pos h,
      sub3F_congr cs.length _ _ (dropWhile_length_le pySpace cs) (Nat.le_refl _)]
    rfl
  · rw [if_neg h, if_neg h]
    rfl

theorem sub3_ind (motive : List Char → Prop)
    (h0 : motive [])
    (h1 : ∀ c cs, pySpace c = true → motive (cs.dropWhile pySpace) → motive (c :: cs))
    (h2 : ∀ c cs, pySpace c = false → motive cs → motive (c :: cs)) :
    ∀ l, motive l := by
  have key : ∀ n (l : List Char), l.length ≤ n → motive l := by
    intro n
    induction n with
    | zero =>
      intro l hl
      rw [List.eq_nil_of_length_eq_zero (Nat.le_zero.mp hl)]
      exact h0
    | succ n ih =>
      intro l hl
      cases l with
      | nil => exact h0
      | cons c cs =>
        simp only [List.length_cons, Nat.succ_le_succ_iff] at hl
        by_cases h : pySpace c
        · exact h1 c cs h (ih _ (Nat.le_trans (dropWhile_length_le pySpace cs) hl))
        · exact h2 c cs (by simpa using h) (ih cs hl)
  exact fun l => key l.length l (Nat.le_refl _)

/-- Matcher for `\s*:\s*` at the current position: maximal whitespace run,
a colon, then a maximal whitespace run; returns the rest on success. -/
def colonTail (l : List Char) : Option (List Char) :=
  match l.dropWhile pySpace with
  | ':' :: r2 => some (r2.dropWhile pySpace)
  | _ => none

theorem colonTail_length {l rest : List Char} (h : colonTail l = some rest) :
    rest.length < l.length := by
  unfold colonTail at h
  split at h
  next r2 heq =>
    simp only [Option.some.injEq] at h
    subst h
    have h1 := dropWhile_length_le pySpace r2
    have h2 := dropWhile_length_le pySpace l
    rw [heq] at h2
    simp only [List.length_cons] at h2
    omega
  next => simp at h

/-- `re.sub(r'\s*:\s*', ':', s)`: scan left to right, replacing each
match of `\s*:\s*` by a single colon. Fuel-structural like `sub3F`. -/
def sub4F : Nat → List Char → List Char
  | 0, l => l
  | _ + 1, [] => []
  | fuel + 1, c :: cs =>
    match colonTail (c :: cs) with
    | some rest => ':' :: sub4F fuel rest
    | none => c :: sub4F fuel cs

def sub4 (l : List Char) : List Char := sub4F l.length l

theorem sub4F_congr : ∀ (n m : Nat) (l : List Char),
    l.length ≤ n → l.length ≤ m → sub4F n l = sub4F m l := by
  intro n
  induction n with
  | zero =>
    intro m l hn _
    have : l = [] := List.eq_nil_of_length_eq_zero (Nat.le_zero.mp hn)
    subst this
    cases m <;> rfl
  | succ n ih =>
    intro m l hn hm
    cases m with
    | zero =>
      have : l = [] := List.eq_nil_of_length_eq_zero (Nat.le_zero.mp hm)
      subst this
      rfl
    | succ m =>
      cases l with
      | nil => rfl
      | cons c cs =>
        simp only [List.length_cons, Nat.succ_le_succ_iff] at hn hm
        unfold sub4F
        cases hct : colonTail (c :: cs) with
        | some rest =>
          simp only [hct]
          have hlen : rest.length ≤ cs.length := by
            have := colonTail_length hct
            simpa using Nat.lt_succ_iff.mp (by simpa using this)
          rw [ih m rest (Nat.le_trans hlen hn) (Nat.le_trans hlen hm)]
        | none =>
          simp only [hct]
          rw [ih m cs hn hm]

theorem sub4_nil : sub4 [] = [] := rfl

theorem sub4_cons (c : Char) (cs : List Char) :
    sub4 (c :: cs) =
      match colonTail (c :: cs) with
      | some rest => ':' :: sub4 rest
      | none => c :: sub4 cs := by
  show (match colonTail (c :: cs) with
        | some rest => ':' :: sub4F cs.length rest
        | none => c :: sub4F cs.length cs) = _
  cases hct : colonTail (c :: cs) with
  | some rest =>
    simp only [hct]
    have hlen : rest.length ≤ cs.length := by
      have := colonTail_length hct
      simpa using Nat.lt_succ_iff.mp (by simpa using this)
    rw [sub4F_congr cs.length _ _ hlen (Nat.le_refl _)]
    rfl
  | none =>
    simp only [hct]
    rfl

theorem sub4_ind (motive : List Char → Prop)
    (h0 : motive [])
    (h1 : ∀ c cs rest, colonTail (c :: cs) = some rest → motive rest → motive (c :: cs))
    (h2 : ∀ c cs, colonTail (c :: cs) = none → motive cs → motive (c :: cs)) :
    ∀ l, motive l := by
  have key : ∀ n (l : List Char), l.length ≤ n → motive l := by
    intro n
    induction n with
    | zero =>
      intro l hl
      rw [List.eq_nil_of_length_eq_zero (Nat.le_zero.mp hl)]
      exact h0
    | succ n ih =>
      intro l hl
      cases l with
      | nil => exact h0
      | cons c cs =>
        simp only [List.length_cons, Nat.succ_le_succ_iff] at hl
        cases hct : colonTail (c :: cs) with
        | some rest =>
          have hlen : rest.length ≤ cs.length := by
            have := colonTail_length hct
            simpa using Nat.lt_succ_iff.mp (by simpa using this)
          exact h1 c cs rest hct (ih rest (Nat.le_trans hlen hl))
        | none => exact h2 c cs hct (ih cs hl)
  exact fun l => key l.length l (Nat.le_refl _)

/-- `re.match(r"([A-Za-z0-9]+)\s+(\d+)", s)` as a boolean: the string must
start with an alphanumeric run, whitespace, then a digit; anything may
follow (the pattern is not anchored at the end). -/
def validateMatch (l : List Char) : Bool :=
  let r := l.dropWhile isAlnumA
  !(l.takeWhile isAlnumA).isEmpty && !(r.takeWhile pySpace).isEmpty &&
    (match r.dropWhile pySpace with
     | d :: _ => d.isDigit
     | [] => false)

/-- Matcher for `Psa\s*(\d+).*` at the current position: the literal `Psa`,
optional whitespace, at least one digit (the captured group), then `.*`
(everything up to the next newline or the end). Returns the digit group and
the rest of the string after the match. -/
def psaMatch (l : List Char) : Option (List Char × List Char) :=
  match l with
  | a :: b :: c :: r =>
    if a = 'P' ∧ b = 's' ∧ c = 'a' then
      let r1 := r.dropWhile pySpace
      let ds := r1.takeWhile Char.isDigit
      if ds.isEmpty then none
      else some (ds, (r1.dropWhile Char.isDigit).dropWhile (fun x => x ≠ '\n'))
    else none
  | _ => none

theorem psaMatch_length {l : List Char} {ds rest : List Char}
    (h : psaMatch l = some (ds, rest)) : rest.length < l.length := by
  match l with
  | [] => simp [psaMatch] at h
  | [a] => simp [psaMatch] at h
  | [a, b] => simp [psaMatch] at h
  | a :: b :: c :: r =>
    simp only [psaMatch] at h
    by_cases hc : a = 'P' ∧ b = 's' ∧ c = 'a'
    · simp only [if_pos hc] at h
      by_cases he : ((r.dropWhile pySpace).takeWhile Char.isDigit).isEmpty
      · simp [he] at h
      · simp only [if_neg he, Option.some.injEq, Prod.mk.injEq] at h
        have h1 : rest.length ≤ ((r.dropWhile pySpace).dropWhile Char.isDigit).length := by
          rw [← h.2]; exact dropWhile_length_le _ _
        have h2 := dropWhile_length_le Char.isDigit (r.dropWhile pySpace)
        have h3 := dropWhile_length_le pySpace r
        simp only [List.length_cons]
        omega
    · simp only [if_neg hc] at h; simp at h

/-- `re.sub(r'Psa\s*(\d+).*', r'Psa \1', s)`: scan left to right; at each
match emit `Psa `, the digit group, and continue after the match.
Fuel-structural like `sub3F`. -/
def sub6F : Nat → List Char → List Char
  | 0, l => l
  | _ + 1, [] => []
  | fuel + 1, c :: cs =>
    match psaMatch (c :: cs) with
    | some (ds, rest) => 'P' :: 's' :: 'a' :: ' ' :: (ds ++ sub6F fuel rest)
    | none => c :: sub6F fuel cs

def sub6 (l : List Char) : List Char := sub6F l.length l

theorem sub6F_congr : ∀ (n m : Nat) (l : List Char),
    l.length ≤ n → l.length ≤ m → sub6F n l = sub6F m l := by
  intro n
  induction n with
  | zero =>
    intro m l hn _
    have : l = [] := List.eq_nil_of_length_eq_zero (Nat.le_zero.mp hn)
    subst this
    cases m <;> rfl
  | succ n ih =>
    intro m l hn hm
    cases m with
    | zero =>
      have : l = [] := List.eq_nil_of_length_eq_zero (Nat.le_zero.mp hm)
      subst this
      rfl
    | succ m =>
      cases l with
      | nil => rfl
      | cons c cs =>
        simp only [List.length_cons, Nat.succ_le_succ_iff] at hn hm
        unfold sub6F
        cases hps : psaMatch (c :: cs) with
        | some p =>
          obtain ⟨ds, rest⟩ := p
          simp only [hps]
          have hlen : rest.length ≤ cs.length := by
            have := psaMatch_length hps
            simpa using Nat.lt_succ_iff.mp (by simpa using this)
          rw [ih m rest (Nat.le_trans hlen hn) (Nat.le_trans hlen hm)]
        | none =>
          simp only [hps]
          rw [ih m cs hn hm]

theorem sub6_nil : sub6 [] = [] := rfl

theorem sub6_cons (c : Char) (cs : List Char) :
    sub6 (c :: cs) =
      match psaMatch (c :: cs) with
      | some (ds, rest) => 'P' :: 's' :: 'a' :: ' ' :: (ds ++ sub6 rest)
      | none => c :: sub6 cs := by
  show (match psaMatch (c :: cs) with
        | some (ds, rest) => 'P' :: 's' :: 'a' :: ' ' :: (ds ++ sub6F cs.length rest)
        | none => c :: sub6F cs.length cs) = _
  cases hps : psaMatch (c :: cs) with
  | some p =>
    obtain ⟨ds, rest⟩ := p
    simp only [hps]
    have hlen : rest.length ≤ cs.length := by
      have := psaMatch_length hps
      simpa using Nat.lt_succ_iff.mp (by simpa using this)
    rw [sub6F_congr cs.length _ _ hlen (Nat.le_refl _)]
    rfl
  | none =>
    simp only [hps]
    rfl

theorem sub6_ind (motive : List Char → Prop)
    (h0 : motive [])
    (h1 : ∀ c cs ds rest, psaMatch (c :: cs) = some (ds, rest) →
      motive rest → motive (c :: cs))
    (h2 : ∀ c cs, psaMatch (c :: cs) = none → motive cs → motive (c :: cs)) :
    ∀ l, motive l := by
  have key : ∀ n (l : List Char), l.length ≤ n → motive l := by
    intro n
    induction n with
    | zero =>
      intro l hl
      rw [List.eq_nil_of_length_eq_zero (Nat.le_zero.mp hl)]
      exact h0
    | succ n ih =>
      intro l hl
      cases l with
      | nil => exact h0
      | cons c cs =>
        simp only [List.length_cons, Nat.succ_le_succ_iff] at hl
        cases hps : psaMatch (c :: cs) with
        | some p =>
          obtain ⟨ds, rest⟩ := p
          have hlen : rest.length ≤ cs.length := by
            have := psaMatch_length hps
            simpa using Nat.lt_succ_iff.mp (by simpa using this)
          exact h1 c cs ds rest hps (ih rest (Nat.le_trans hlen hl))
        | none => exact h2 c cs hps (ih cs hl)
  exact fun l => key l.length l (Nat.le_refl _)

/-- The processing pipeline of `scripture_format_validator` up to (and
excluding) the chapter-presence check: title-case and strip, join a numeric
book prefix to the book name, truncate the book token to 3 characters,
collapse whitespace, remove whitespace around colons. -/
def normalizePre (l : List Char) : List Char :=
  sub4 (sub3 (sub2 (sub1 (pyStrip (pyTitle l)))))

/-- `scripture_format_validator(scripture)`: run the pipeline, raise
`ValueError` (modelled as `Except.error` carrying the processed string that
the message embeds) when the chapter check fails, else apply the
Psalm-verse-truncation substitution and return. -/
def scripture_format_validator (l : List Char) : Except (List Char) (List Char) :=
  let p := normalizePre l
  if validateMatch p then Except.ok (sub6 p) else Except.error p

/-- String-level wrapper of the normalizer. -/
def normalizeStr (s : String) : Except String String :=
  match scripture_format_validator s.toList with
  | Except.ok t => Except.ok ⟨t⟩
  | Except.error e => Except.error ⟨e⟩

/-! ## Association list facts -/

theorem alookup_eq_none {m : List (Nat × List String)} {i : Nat} :
    alookup m i = none ↔ i ∉ akeys m := by
  unfold alookup akeys
  rw [Option.map_eq_none', List.find?_eq_none]
  simp only [beq_iff_eq, List.mem_map]
  constructor
  · rintro h ⟨kv, hkv, rfl⟩
    exact h kv hkv rfl
  · intro h kv hkv he
    exact h ⟨kv, hkv, he⟩

theorem alookup_isSome_of_mem_akeys {m : List (Nat × List String)} {i : Nat}
    (h : i ∈ akeys m) : ∃ g, alookup m i = some g := by
  cases hl : alookup m i with
  | none => exact absurd h (alookup_eq_none.mp hl)
  | some g => exact ⟨g, rfl⟩

theorem mem_akeys_of_alookup {m : List (Nat × List String)} {i : Nat} {g : List String}
    (h : alookup m i = some g) : i ∈ akeys m := by
  by_contra hc
  rw [alookup_eq_none.mpr hc] at h
  exact absurd h (by simp)

theorem alookup_mem {m : List (Nat × List String)} {i : Nat} {g : List String}
    (h : alookup m i = some g) : (i, g) ∈ m := by
  unfold alookup at h
  cases hf : m.find? (fun kv => kv.1 == i) with
  | none => rw [hf] at h; exact absurd h (by simp)
  | some kv =>
    rw [hf] at h
    have hm := List.mem_of_find?_eq_some hf
    have hp := List.find?_some hf
    simp only [beq_iff_eq] at hp
    simp only [Option.map_some', Option.some.injEq] at h
    have : kv = (i, g) := by
      obtain ⟨k1, k2⟩ := kv
      simp only at hp h
      simp [hp, h]
    exact this ▸ hm

theorem mem_alookup_of_nodup {m : List (Nat × List String)} (hnd : (akeys m).Nodup)
    {i : Nat} {g : List String} (h : (i, g) ∈ m) : alookup m i = some g := by
  induction m with
  | nil => simp at h
  | cons kv rest ih =>
    unfold akeys at hnd
    simp only [List.map_cons, List.nodup_cons] at hnd
    rcases List.mem_cons.mp h with h1 | h2
    · subst h1
      unfold alookup
      rw [List.find?_cons_of_pos _ (by simp)]
      rfl
    · have hi : i ∈ akeys rest := by
        unfold akeys
        exact List.mem_map.mpr ⟨(i, g), h2, rfl⟩
      have hne : kv.1 ≠ i := fun he => hnd.1 (he ▸ hi)
      unfold alookup
      rw [List.find?_cons_of_neg _ (by simpa using hne)]
      have hrec := ih hnd.2 h2
      unfold alookup at hrec
      exact hrec

theorem alookup_append_right_irrelevant {B : List (Nat × List String)} {i j : Nat}
    (v : List String) (hne : i ≠ j) : alookup (B ++ [(j, v)]) i = alookup B i := by
  unfold alookup
  rw [List.find?_append]
  cases hf : B.find? (fun kv => kv.1 == i) with
  | some kv => simp
  | none => simp [Option.or, List.find?_cons, Ne.symm hne]

/-! ## C6: the relationship extractor and differing input lengths -/

/-- C6 counterexample: with one psalm cell and zero related cells, the
psalm mapping has 1 index while `min 1 0 = 0`; the extractor does not
truncate to the shorter length. -/
theorem parse_html_data_min_cex :
    (parse_html_data [["2"]] []).1.length ≠
      min ([["2"]] : List (List String)).length ([] : List (List String)).length := by
  decide

/-- C6 amended: extraction never fails and each returned mapping has
exactly one index per element of its own input sequence (indices
`0 .. len-1`), with no truncation to the shorter input. -/
theorem parse_html_data_lengths (A B : List (List String)) :
    (parse_html_data A B).1.length = A.length ∧
    (parse_html_data A B).2.length = B.length ∧
    akeys (parse_html_data A B).1 = List.range A.length ∧
    akeys (parse_html_data A B).2 = List.range B.length := by
  refine ⟨by simp [parse_html_data], by simp [parse_html_data], ?_, ?_⟩
  · unfold parse_html_data akeys
    rw [List.map_map]
    have : ((fun kv => kv.1) ∘ fun p : Nat × List String =>
        (p.1, p.2.map (fun num => "Psa " ++ num))) = Prod.fst := rfl
    simp only [this]
    exact List.enum_map_fst A
  · unfold parse_html_data akeys
    exact List.enum_map_fst B

/-! ## C10: `build_bidirectional_dict` and missing related indices -/

theorem buildGo_eq_none_iff (B : List (Nat × List String)) :
    ∀ (l : List (Nat × List String)) (st : List SEntry × Nat),
      buildGo B l st = none ↔ ∃ i, i ∈ akeys l ∧ i ∉ akeys B := by
  intro l
  induction l with
  | nil => intro st; simp [buildGo, akeys]
  | cons kv rest ih =>
    intro st
    obtain ⟨i, ps⟩ := kv
    unfold buildGo
    cases hl : alookup B i with
    | none =>
      simp only [true_iff]
      exact ⟨i, by simp [akeys], alookup_eq_none.mp hl⟩
    | some rs =>
      simp only []
      rw [ih]
      constructor
      · rintro ⟨j, hj, hnb⟩
        exact ⟨j, by simp [akeys] at hj ⊢; exact Or.inr hj, hnb⟩
      · rintro ⟨j, hj, hnb⟩
        simp only [akeys, List.map_cons, List.mem_cons] at hj
        rcases hj with hj | hj
        · subst hj
          exact absurd (mem_akeys_of_alookup hl) hnb
        · exact ⟨j, hj, hnb⟩

theorem buildGo_congr_related (B B' : List (Nat × List String)) :
    ∀ (l : List (Nat × List String)) (st : List SEntry × Nat),
      (∀ i, i ∈ akeys l → alookup B' i = alookup B i) →
      buildGo B' l st = buildGo B l st := by
  intro l
  induction l with
  | nil => intro st _; rfl
  | cons kv rest ih =>
    intro st hag
    obtain ⟨i, ps⟩ := kv
    unfold buildGo
    rw [hag i (by simp [akeys])]
    cases alookup B i with
    | none => rfl
    | some rs =>
      exact ih _ (fun j hj => hag j (by simp [akeys] at hj ⊢; exact Or.inr hj))

/-- C10: `build_bidirectional_dict` raises `KeyError` (returns `none`)
exactly when some index of the psalm mapping is absent from the related
mapping, and an extra index present only in the related mapping is
silently ignored (adding it does not change the result). -/
theorem build_keyerror (A B : List (Nat × List String)) :
    (build_bidirectional_dict A B = none ↔ ∃ i, i ∈ akeys A ∧ i ∉ akeys B) ∧
    (∀ j v, j ∉ akeys A →
      build_bidirectional_dict A (B ++ [(j, v)]) = build_bidirectional_dict A B) := by
  constructor
  · unfold build_bidirectional_dict
    rw [Option.map_eq_none']
    exact buildGo_eq_none_iff B A ([], 0)
  · intro j v hj
    unfold build_bidirectional_dict
    rw [buildGo_congr_related B (B ++ [(j, v)]) A ([], 0)
      (fun i hi => alookup_append_right_irrelevant v (fun he => hj (he ▸ hi)))]

/-- C10 witness: `{0: ["Psa 2"]}` with an empty related mapping raises
`KeyError`, and an index present only in the related mapping is ignored. -/
theorem build_keyerror_witness :
    build_bidirectional_dict [(0, ["Psa 2"])] [] = none ∧
    build_bidirectional_dict [(0, ["Psa 2"])] ([(0, ["Dan 1"])] ++ [(5, ["Rev 1"])]) =
      build_bidirectional_dict [(0, ["Psa 2"])] [(0, ["Dan 1"])] :=
  ⟨(build_keyerror [(0, ["Psa 2"])] []).1.mpr ⟨0, by decide, by decide⟩,
   (build_keyerror [(0, ["Psa 2"])] [(0, ["Dan 1"])]).2 5 ["Rev 1"] (by decide)⟩

/-! ## C2: `dict_lookup` chapter-level fallback is not flattened -/

/-- C2: on the spec's own end-to-end example, the chapter-level fallback of
`dict_lookup` returns the list of matching value lists unflattened — a
nested list `[["Dan 7:28"]]` rather than the flat `["Dan 7:28"]` promised
by the spec and by the function's own docstring example. -/
theorem dict_lookup_chapter_unflattened :
    build_bidirectional_dict [(0, ["Psa 2"])] [(0, ["Dan 7:28"])] =
      some [⟨"Psa 2", 0, ["Dan 7:28"]⟩, ⟨"Dan 7:28", 1, ["Psa 2"]⟩] ∧
    dict_lookup "Psa 2:5" [⟨"Psa 2", 0, ["Dan 7:28"]⟩, ⟨"Dan 7:28", 1, ["Psa 2"]⟩] =
      PyVal.list [PyVal.list [PyVal.str "Dan 7:28"]] ∧
    PyVal.list [PyVal.list [PyVal.str "Dan 7:28"]] ≠ PyVal.list [PyVal.str "Dan 7:28"] := by
  refine ⟨rfl, rfl, ?_⟩
  simp

/-! ## C8: the scan lookup's chapter-level fallback is joint, not per group -/

theorem filter_lookup_exact_branch (reference : String)
    (psalm related : List (Nat × List String))
    (h : ¬(exactGroupMatches reference psalm = [] ∧
      exactGroupMatches reference related = [])) :
    filter_lookup reference psalm related =
      match collectRels (exactGroupMatches reference psalm) related,
            collectRels (exactGroupMatches reference related) psalm with
      | some r1, some r2 => some (r1 ++ r2)
      | _, _ => none := by
  have hfalse : ((exactGroupMatches reference psalm).isEmpty &&
      (exactGroupMatches reference related).isEmpty) = false := by
    rcases not_and_or.mp h with h1 | h1 <;> simp [List.isEmpty_iff, h1]
  unfold filter_lookup
  simp only [hfalse, Bool.false_eq_true, if_false]

theorem filter_lookup_fallback_branch (reference : String)
    (psalm related : List (Nat × List String))
    (h1 : exactGroupMatches reference psalm = [])
    (h2 : exactGroupMatches reference related = []) :
    filter_lookup reference psalm related =
      match collectRels (chapterGroupMatches reference psalm) related,
            collectRels (chapterGroupMatches reference related) psalm with
      | some r1, some r2 => some (r1 ++ r2)
      | _, _ => none := by
  have htrue : ((exactGroupMatches reference psalm).isEmpty &&
      (exactGroupMatches reference related).isEmpty) = true := by
    simp [List.isEmpty_iff, h1, h2]
  unfold filter_lookup
  simp only [htrue, if_true, h1, h2]
  rfl

/-- C8: `filter_lookup` performs the chapter-level rescan of both mappings
iff both exact scans found no group; if even one mapping has an exact
match, neither mapping is rescanned at chapter level (the result is built
from the exact matches alone). -/
theorem filter_lookup_joint_fallback (reference : String)
    (psalm related : List (Nat × List String)) :
    (¬(exactGroupMatches reference psalm = [] ∧ exactGroupMatches reference related = []) →
      filter_lookup reference psalm related =
        match collectRels (exactGroupMatches reference psalm) related,
              collectRels (exactGroupMatches reference related) psalm with
        | some r1, some r2 => some (r1 ++ r2)
        | _, _ => none) ∧
    (exactGroupMatches reference psalm = [] ∧ exactGroupMatches reference related = [] →
      filter_lookup reference psalm related =
        match collectRels (chapterGroupMatches reference psalm) related,
              collectRels (chapterGroupMatches reference related) psalm with
        | some r1, some r2 => some (r1 ++ r2)
        | _, _ => none) :=
  ⟨filter_lookup_exact_branch reference psalm related,
   fun h => filter_lookup_fallback_branch reference psalm related h.1 h.2⟩

/-- C8 witness: an exact match in the psalm mapping alone suppresses the
chapter-level rescan of the related mapping — group 0's `"X 1:2"` would
match `"X 1"` at chapter level, yet the result comes from the exact match
only. -/
theorem filter_lookup_joint_fallback_witness :
    ¬(exactGroupMatches "X 1" [(0, ["X 1"])] = [] ∧
        exactGroupMatches "X 1" [(0, ["X 1:2"])] = []) ∧
    filter_lookup "X 1" [(0, ["X 1"])] [(0, ["X 1:2"])] = some ["X 1:2"] := by
  refine ⟨by decide, ?_⟩
  rw [(filter_lookup_joint_fallback "X 1" [(0, ["X 1"])] [(0, ["X 1:2"])]).1 (by decide)]
  rfl

/-! ## The built index: object-id invariants and value characterization -/

/-- The value list stored under `k` (empty when `k` is not a key). -/
def valsOf (m : List SEntry) (k : String) : List String :=
  match smFind m k with
  | some e => e.vals
  | none => []

/-- No two slots of the map hold the same list object. -/
def DistinctOids (m : List SEntry) : Prop :=
  m.Pairwise (fun e1 e2 => e1.oid ≠ e2.oid)

/-- Build-state invariant: slots hold pairwise distinct objects, all
allocated below the counter. -/
def GoodIds (st : List SEntry × Nat) : Prop :=
  DistinctOids st.1 ∧ ∀ e ∈ st.1, e.oid < st.2

theorem smFind_some_key {m : List SEntry} {k : String} {e : SEntry}
    (h : smFind m k = some e) : e ∈ m ∧ e.key = k := by
  refine ⟨List.mem_of_find?_eq_some h, ?_⟩
  have := List.find?_some h
  simpa using this

theorem smFind_extendById (m : List SEntry) (i : Nat) (extra : List String) (k : String) :
    smFind (extendById m i extra) k =
      (smFind m k).map
        (fun e => if e.oid = i then { e with vals := e.vals ++ extra } else e) := by
  unfold smFind extendById
  rw [List.find?_map]
  have hfun : ((fun e : SEntry => e.key == k) ∘ fun e =>
      if e.oid = i then { e with vals := e.vals ++ extra } else e) =
      (fun e : SEntry => e.key == k) := by
    funext e
    by_cases h : e.oid = i <;> simp [h]
  rw [hfun]

theorem addRef_find (st : List SEntry × Nat) (hG : GoodIds st) (k : String)
    (payload : List String) (q : String) :
    smFind (addRef st k payload).1 q =
      match smFind st.1 q with
      | some e => some (if q = k then { e with vals := e.vals ++ payload } else e)
      | none => if q = k then some ⟨k, st.2, payload⟩ else none := by
  unfold addRef
  cases hk : smFind st.1 k with
  | none =>
    simp only []
    unfold smFind
    rw [List.find?_append]
    cases hq : smFind st.1 q with
    | some e =>
      have hqk : q ≠ k := by
        intro he
        rw [he, hk] at hq
        exact absurd hq (by simp)
      unfold smFind at hq
      rw [hq]
      simp [hqk]
    | none =>
      unfold smFind at hq
      rw [hq]
      by_cases hqk : q = k
      · subst hqk
        simp [List.find?_cons]
      · have : ((⟨k, st.2, payload⟩ : SEntry).key == q) = false := by
          simpa using Ne.symm hqk
        simp [List.find?_cons, this, hqk]
  | some e =>
    simp only []
    rw [smFind_extendById]
    cases hq : smFind st.1 q with
    | none =>
      have hqk : q ≠ k := by
        intro he
        rw [he, hk] at hq
        exact absurd hq (by simp)
      simp [hqk]
    | some e2 =>
      by_cases hqk : q = k
      · subst hqk
        rw [hk] at hq
        injection hq with hq
        subst hq
        simp
      · have he : e ∈ st.1 ∧ e.key = k := smFind_some_key hk
        have he2 : e2 ∈ st.1 ∧ e2.key = q := smFind_some_key hq
        have hne : e2 ≠ e := by
          intro hc
          exact hqk (by rw [← he2.2, hc, he.2])
        have hoid : e2.oid ≠ e.oid := by
          have hsym : ∀ a b : SEntry,
              (fun e1 e2 : SEntry => e1.oid ≠ e2.oid) a b →
              (fun e1 e2 : SEntry => e1.oid ≠ e2.oid) b a := fun a b h => Ne.symm h
          exact List.Pairwise.forall hsym hG.1 he2.1 he.1 hne
        simp [hoid, hqk]

theorem addRef_good (st : List SEntry × Nat) (hG : GoodIds st) (k : String)
    (payload : List String) : GoodIds (addRef st k payload) := by
  unfold addRef
  cases hk : smFind st.1 k with
  | none =>
    constructor
    · unfold DistinctOids
      rw [List.pairwise_append]
      refine ⟨hG.1, by simp, ?_⟩
      intro e1 h1 e2 h2
      simp only [List.mem_singleton] at h2
      subst h2
      exact Nat.ne_of_lt (hG.2 e1 h1)
    · intro e he
      rcases List.mem_append.mp he with h1 | h2
      · exact Nat.lt_succ_of_lt (hG.2 e h1)
      · simp only [List.mem_singleton] at h2
        subst h2
        exact Nat.lt_succ_self _
  | some e0 =>
    have hoidf : ∀ e1 : SEntry,
        (if e1.oid = e0.oid then { e1 with vals := e1.vals ++ payload } else e1).oid =
          e1.oid := by
      intro e1
      by_cases h1 : e1.oid = e0.oid <;> simp [h1]
    constructor
    · unfold DistinctOids extendById
      rw [List.pairwise_map]
      refine hG.1.imp ?_
      intro e1 e2 h
      rw [hoidf e1, hoidf e2]
      exact h
    · intro e he
      unfold extendById at he
      rcases List.mem_map.mp he with ⟨e1, he1, rfl⟩
      rw [hoidf e1]
      exact hG.2 e1 he1

theorem addRef_vals (st : List SEntry × Nat) (hG : GoodIds st) (k : String)
    (payload : List String) (q : String) :
    valsOf (addRef st k payload).1 q =
      valsOf st.1 q ++ (if q = k then payload else []) := by
  unfold valsOf
  rw [addRef_find st hG k payload q]
  cases hq : smFind st.1 q with
  | none => by_cases hqk : q = k <;> simp [hqk]
  | some e => by_cases hqk : q = k <;> simp [hqk]

theorem addRef_keys (st : List SEntry × Nat) (hG : GoodIds st) (k : String)
    (payload : List String) (q : String) :
    (∃ e, smFind (addRef st k payload).1 q = some e) ↔
      (∃ e, smFind st.1 q = some e) ∨ q = k := by
  rw [addRef_find st hG k payload q]
  cases hq : smFind st.1 q with
  | none =>
    by_cases hqk : q = k <;> simp [hqk]
  | some e =>
    simp

theorem foldl_addRef_spec (payload : List String) :
    ∀ (refs : List String) (st : List SEntry × Nat), GoodIds st →
      GoodIds (refs.foldl (fun s p => addRef s p payload) st) ∧
      (∀ q x, x ∈ valsOf (refs.foldl (fun s p => addRef s p payload) st).1 q ↔
        x ∈ valsOf st.1 q ∨ (q ∈ refs ∧ x ∈ payload)) ∧
      (∀ q, (∃ e, smFind (refs.foldl (fun s p => addRef s p payload) st).1 q = some e) ↔
        (∃ e, smFind st.1 q = some e) ∨ q ∈ refs) := by
  intro refs
  induction refs with
  | nil => intro st hG; simp [hG]
  | cons p rest ih =>
    intro st hG
    simp only [List.foldl_cons]
    obtain ⟨ihG, ihv, ihk⟩ := ih (addRef st p payload) (addRef_good st hG p payload)
    refine ⟨ihG, ?_, ?_⟩
    · intro q x
      rw [ihv q x, addRef_vals st hG p payload q]
      by_cases hqp : q = p
      · subst hqp
        simp only [List.mem_append]
        constructor
        · rintro ((h | h) | h)
          · exact Or.inl h
          · exact Or.inr ⟨List.mem_cons_self _ _, by simpa using h⟩
          · exact Or.inr ⟨List.mem_cons_self _ _, h.2⟩
        · rintro (h | ⟨_, h2⟩)
          · exact Or.inl (Or.inl h)
          · exact Or.inl (Or.inr (by simpa using h2))
      · simp only [if_neg hqp, List.append_nil, List.mem_cons]
        constructor
        · rintro (h | h)
          · exact Or.inl h
          · exact Or.inr ⟨Or.inr h.1, h.2⟩
        · rintro (h | ⟨h1 | h1, h2⟩)
          · exact Or.inl h
          · exact absurd h1 hqp
          · exact Or.inr ⟨h1, h2⟩
    · intro q
      rw [ihk q, addRef_keys st hG p payload q]
      simp only [List.mem_cons]
      tauto

theorem buildGo_spec (B : List (Nat × List String)) :
    ∀ (l : List (Nat × List String)) (st st' : List SEntry × Nat),
      GoodIds st → buildGo B l st = some st' →
      GoodIds st' ∧
      (∀ q x, x ∈ valsOf st'.1 q ↔ x ∈ valsOf st.1 q ∨
        ∃ i ps rs, (i, ps) ∈ l ∧ alookup B i = some rs ∧
          ((q ∈ ps ∧ x ∈ rs) ∨ (q ∈ rs ∧ x ∈ ps))) ∧
      (∀ q, (∃ e, smFind st'.1 q = some e) ↔ (∃ e, smFind st.1 q = some e) ∨
        ∃ i ps rs, (i, ps) ∈ l ∧ alookup B i = some rs ∧ (q ∈ ps ∨ q ∈ rs)) := by
  intro l
  induction l with
  | nil =>
    intro st st' hG h
    unfold buildGo at h
    injection h with h
    subst h
    simp [hG]
  | cons kv rest ih =>
    intro st st' hG h
    obtain ⟨i, ps⟩ := kv
    unfold buildGo at h
    cases hl : alookup B i with
    | none => rw [hl] at h; exact absurd h (by simp)
    | some rs =>
      rw [hl] at h
      simp only [] at h
      obtain ⟨hG1, hv1, hk1⟩ := foldl_addRef_spec rs ps st hG
      set st1 := ps.foldl (fun s p => addRef s p rs) st with hst1
      obtain ⟨hG2, hv2, hk2⟩ := foldl_addRef_spec ps rs st1 hG1
      set st2 := rs.foldl (fun s r => addRef s r ps) st1 with hst2
      obtain ⟨ihG, ihv, ihk⟩ := ih st2 st' hG2 h
      refine ⟨ihG, ?_, ?_⟩
      · intro q x
        rw [ihv q x, hv2 q x, hv1 q x]
        constructor
        · rintro (((h0 | h0) | h0) | h0)
          · exact Or.inl h0
          · exact Or.inr ⟨i, ps, rs, by simp, hl, Or.inl h0⟩
          · exact Or.inr ⟨i, ps, rs, by simp, hl, Or.inr h0⟩
          · obtain ⟨i', ps', rs', hm, hl', hd⟩ := h0
            exact Or.inr ⟨i', ps', rs', List.mem_cons_of_mem _ hm, hl', hd⟩
        · rintro (h0 | ⟨i', ps', rs', hm, hl', hd⟩)
          · exact Or.inl (Or.inl (Or.inl h0))
          · rcases List.mem_cons.mp hm with hm | hm
            · injection hm with hm1 hm2
              subst hm1; subst hm2
              rw [hl'] at hl
              injection hl with hl
              subst hl
              rcases hd with hd | hd
              · exact Or.inl (Or.inl (Or.inr hd))
              · exact Or.inl (Or.inr hd)
            · exact Or.inr ⟨i', ps', rs', hm, hl', hd⟩
      · intro q
        rw [ihk q, hk2 q, hk1 q]
        constructor
        · rintro (((h0 | h0) | h0) | h0)
          · exact Or.inl h0
          · exact Or.inr ⟨i, ps, rs, by simp, hl, Or.inl h0⟩
          · exact Or.inr ⟨i, ps, rs, by simp, hl, Or.inr h0⟩
          · obtain ⟨i', ps', rs', hm, hl', hd⟩ := h0
            exact Or.inr ⟨i', ps', rs', List.mem_cons_of_mem _ hm, hl', hd⟩
        · rintro (h0 | ⟨i', ps', rs', hm, hl', hd⟩)
          · exact Or.inl (Or.inl (Or.inl h0))
          · rcases List.mem_cons.mp hm with hm | hm
            · injection hm with hm1 hm2
              subst hm1; subst hm2
              rw [hl'] at hl
              injection hl with hl
              subst hl
              rcases hd with hd | hd
              · exact Or.inl (Or.inl (Or.inr hd))
              · exact Or.inl (Or.inr hd)
            · exact Or.inr ⟨i', ps', rs', hm, hl', hd⟩

theorem build_spec {A B : List (Nat × List String)} {m : List SEntry}
    (hm : build_bidirectional_dict A B = some m) :
    DistinctOids m ∧
    (∀ q x, x ∈ valsOf m q ↔
      ∃ i ps rs, (i, ps) ∈ A ∧ alookup B i = some rs ∧
        ((q ∈ ps ∧ x ∈ rs) ∨ (q ∈ rs ∧ x ∈ ps))) ∧
    (∀ q, (∃ e, smFind m q = some e) ↔
      ∃ i ps rs, (i, ps) ∈ A ∧ alookup B i = some rs ∧ (q ∈ ps ∨ q ∈ rs)) := by
  unfold build_bidirectional_dict at hm
  cases hgo : buildGo B A ([], 0) with
  | none => rw [hgo] at hm; exact absurd hm (by simp)
  | some st' =>
    rw [hgo] at hm
    simp only [Option.map_some', Option.some.injEq] at hm
    have hGinit : GoodIds (([] : List SEntry), 0) := by
      constructor
      · exact List.Pairwise.nil
      · intro e he; simp at he
    obtain ⟨hG, hv, hk⟩ := buildGo_spec B A ([], 0) st' hGinit hgo
    subst hm
    refine ⟨hG.1, ?_, ?_⟩
    · intro q x
      rw [hv q x]
      simp [valsOf, smFind]
    · intro q
      rw [hk q]
      simp [smFind]

/-! ## C9: non-aliasing of the value lists in the built index -/

/-- C9: in a successfully built index, the value lists of two distinct
keys are independent objects: extending the list object held under `key1`
(which mutates every slot holding that object, per `extendById`) leaves
the entry of any other key `key2` unchanged, while `key1`'s own entry does
get the extension. -/
theorem build_no_aliasing (A B : List (Nat × List String)) (m : List SEntry)
    (hm : build_bidirectional_dict A B = some m)
    (k1 k2 : String) (hne : k1 ≠ k2) (e1 e2 : SEntry)
    (h1 : smFind m k1 = some e1) (h2 : smFind m k2 = some e2)
    (extra : List String) :
    smFind (extendById m e1.oid extra) k2 = some e2 ∧
    smFind (extendById m e1.oid extra) k1 =
      some { e1 with vals := e1.vals ++ extra } := by
  have hdis : DistinctOids m := (build_spec hm).1
  have he1 := smFind_some_key h1
  have he2 := smFind_some_key h2
  have hne12 : e2 ≠ e1 := by
    intro hc
    exact hne (by rw [← he1.2, ← he2.2, hc])
  have hoid : e2.oid ≠ e1.oid := by
    have hsym : ∀ a b : SEntry,
        (fun x y : SEntry => x.oid ≠ y.oid) a b →
        (fun x y : SEntry => x.oid ≠ y.oid) b a := fun a b h => Ne.symm h
    exact List.Pairwise.forall hsym hdis he2.1 he1.1 hne12
  constructor
  · rw [smFind_extendById, h2]
    simp [hoid]
  · rw [smFind_extendById, h1]
    simp

/-- C9 witness: on the two-entry index built from the end-to-end example,
extending `"Psa 2"`'s list leaves `"Dan 7:28"`'s entry untouched. -/
theorem build_no_aliasing_witness :
    smFind (extendById [⟨"Psa 2", 0, ["Dan 7:28"]⟩, ⟨"Dan 7:28", 1, ["Psa 2"]⟩]
        (⟨"Psa 2", 0, ["Dan 7:28"]⟩ : SEntry).oid ["Rev 1"]) "Dan 7:28" =
      some ⟨"Dan 7:28", 1, ["Psa 2"]⟩ ∧
    smFind (extendById [⟨"Psa 2", 0, ["Dan 7:28"]⟩, ⟨"Dan 7:28", 1, ["Psa 2"]⟩]
        (⟨"Psa 2", 0, ["Dan 7:28"]⟩ : SEntry).oid ["Rev 1"]) "Psa 2" =
      some ⟨"Psa 2", 0, ["Dan 7:28", "Rev 1"]⟩ :=
  build_no_aliasing [(0, ["Psa 2"])] [(0, ["Dan 7:28"])]
    [⟨"Psa 2", 0, ["Dan 7:28"]⟩, ⟨"Dan 7:28", 1, ["Psa 2"]⟩] (by rfl)
    "Psa 2" "Dan 7:28" (by decide)
    ⟨"Psa 2", 0, ["Dan 7:28"]⟩ ⟨"Dan 7:28", 1, ["Psa 2"]⟩ (by rfl) (by rfl) ["Rev 1"]

/-! ## C4: bidirectionality per row -/

/-- C4: for every group index `i`, every `P` in `pairA[i]` and `R` in
`pairB[i]`: after a successful build, the value list of `index[P]`
contains `R` and the value list of `index[R]` contains `P`. -/
theorem build_bidirectional (A B : List (Nat × List String)) (i : Nat)
    (la lb : List String) (hA : alookup A i = some la) (hB : alookup B i = some lb)
    (P R : String) (hP : P ∈ la) (hR : R ∈ lb) (m : List SEntry)
    (hm : build_bidirectional_dict A B = some m) :
    (∃ e, smFind m P = some e ∧ R ∈ e.vals) ∧
    (∃ e, smFind m R = some e ∧ P ∈ e.vals) := by
  obtain ⟨-, hv, -⟩ := build_spec hm
  have hmem : (i, la) ∈ A := alookup_mem hA
  have hRP : R ∈ valsOf m P :=
    (hv P R).mpr ⟨i, la, lb, hmem, hB, Or.inl ⟨hP, hR⟩⟩
  have hPR : P ∈ valsOf m R :=
    (hv R P).mpr ⟨i, la, lb, hmem, hB, Or.inr ⟨hR, hP⟩⟩
  constructor
  · unfold valsOf at hRP
    cases hf : smFind m P with
    | none => rw [hf] at hRP; simp at hRP
    | some e => rw [hf] at hRP; exact ⟨e, rfl, hRP⟩
  · unfold valsOf at hPR
    cases hf : smFind m R with
    | none => rw [hf] at hPR; simp at hPR
    | some e => rw [hf] at hPR; exact ⟨e, rfl, hPR⟩

/-- C4 witness: the end-to-end example `pairA = {0: ["Psa 2"]}`,
`pairB = {0: ["Dan 7:28"]}`. -/
theorem build_bidirectional_witness :
    (∃ e, smFind [⟨"Psa 2", 0, ["Dan 7:28"]⟩, ⟨"Dan 7:28", 1, ["Psa 2"]⟩] "Psa 2" =
        some e ∧ "Dan 7:28" ∈ e.vals) ∧
    (∃ e, smFind [⟨"Psa 2", 0, ["Dan 7:28"]⟩, ⟨"Dan 7:28", 1, ["Psa 2"]⟩] "Dan 7:28" =
        some e ∧ "Psa 2" ∈ e.vals) :=
  build_bidirectional [(0, ["Psa 2"])] [(0, ["Dan 7:28"])] 0 ["Psa 2"] ["Dan 7:28"]
    (by rfl) (by rfl) "Psa 2" "Dan 7:28" (by decide) (by decide)
    [⟨"Psa 2", 0, ["Dan 7:28"]⟩, ⟨"Dan 7:28", 1, ["Psa 2"]⟩] (by rfl)

/-! ## C1: index lookup vs scan lookup -/

theorem collectRels_spec (other : List (Nat × List String)) :
    ∀ (ms : List (Nat × List String)),
      (∀ kv ∈ ms, ∃ g, alookup other kv.1 = some g) →
      ∃ out, collectRels ms other = some out ∧
        ∀ x, x ∈ out ↔ ∃ kv g, kv ∈ ms ∧ alookup other kv.1 = some g ∧ x ∈ g := by
  intro ms
  induction ms with
  | nil =>
    intro _
    exact ⟨[], rfl, by simp⟩
  | cons kv rest ih =>
    intro h
    obtain ⟨i, ps⟩ := kv
    obtain ⟨g, hg⟩ := h (i, ps) (List.mem_cons_self _ _)
    obtain ⟨out, hout, hmem⟩ := ih (fun kv hkv => h kv (List.mem_cons_of_mem _ hkv))
    refine ⟨g ++ out, ?_, ?_⟩
    · unfold collectRels
      simp only at hg
      rw [hg, hout]
    · intro x
      rw [List.mem_append]
      constructor
      · rintro (hx | hx)
        · exact ⟨(i, ps), g, List.mem_cons_self _ _, hg, hx⟩
        · obtain ⟨kv', g', hkv', hg', hx'⟩ := (hmem x).mp hx
          exact ⟨kv', g', List.mem_cons_of_mem _ hkv', hg', hx'⟩
      · rintro ⟨kv', g', hkv', hg', hx'⟩
        rcases List.mem_cons.mp hkv' with h1 | h1
        · subst h1
          simp only at hg'
          rw [hg] at hg'
          injection hg' with hg'
          subst hg'
          exact Or.inl hx'
        · exact Or.inr ((hmem x).mpr ⟨kv', g', h1, hg', hx'⟩)

/-- C1 counterexample: with `pairA = {}` and `pairB = {0: ["Dan 3"]}`, the
build succeeds (empty index), the reference `"Dan 3"` appears in a group of
`pairB`, `lookup_index` returns the empty list, but `lookup_scan` raises
`KeyError` (accessing `pairA[0]`) — there is no result set at all, so the
claimed set equality fails. -/
theorem index_scan_equiv_cex :
    build_bidirectional_dict [] [(0, ["Dan 3"])] = some [] ∧
    alookup [(0, ["Dan 3"])] 0 = some ["Dan 3"] ∧ "Dan 3" ∈ ["Dan 3"] ∧
    dict_lookup "Dan 3" [] = PyVal.list [] ∧
    filter_lookup "Dan 3" [] [(0, ["Dan 3"])] = none ∧
    ¬∃ res : List String, filter_lookup "Dan 3" [] [(0, ["Dan 3"])] = some res := by
  refine ⟨rfl, rfl, by decide, rfl, rfl, ?_⟩
  rintro ⟨res, h⟩
  rw [show filter_lookup "Dan 3" [] [(0, ["Dan 3"])] = none from rfl] at h
  exact absurd h (by simp)

/-- C1 amended: when the two group mappings have the same key sets (so the
scan path never hits a missing index), both lookups succeed on any
reference appearing in some group, the index lookup takes its exact branch,
and the two results are equal as sets. -/
theorem index_scan_equiv (A B : List (Nat × List String))
    (hA : (akeys A).Nodup) (hB : (akeys B).Nodup)
    (hk : ∀ i, i ∈ akeys A ↔ i ∈ akeys B)
    (r : String)
    (hr : (∃ i la, alookup A i = some la ∧ r ∈ la) ∨
          (∃ i lb, alookup B i = some lb ∧ r ∈ lb)) :
    ∃ m e res, build_bidirectional_dict A B = some m ∧
      smFind m r = some e ∧
      dict_lookup r m = PyVal.list (e.vals.map PyVal.str) ∧
      filter_lookup r A B = some res ∧
      (∀ x, x ∈ e.vals ↔ x ∈ res) := by
  -- the build succeeds: every psalm index is a related index
  obtain ⟨m, hm⟩ : ∃ m, build_bidirectional_dict A B = some m := by
    cases hb : build_bidirectional_dict A B with
    | some m => exact ⟨m, rfl⟩
    | none =>
      unfold build_bidirectional_dict at hb
      rw [Option.map_eq_none'] at hb
      obtain ⟨i, hiA, hiB⟩ := (buildGo_eq_none_iff B A ([], 0)).mp hb
      exact absurd ((hk i).mp hiA) hiB
  obtain ⟨hdis, hv, hkeys⟩ := build_spec hm
  -- the reference is a key of the built index
  obtain ⟨e, he⟩ : ∃ e, smFind m r = some e := by
    rw [hkeys r]
    rcases hr with ⟨i, la, hla, hrla⟩ | ⟨i, lb, hlb, hrlb⟩
    · obtain ⟨rs, hrs⟩ :=
        alookup_isSome_of_mem_akeys ((hk i).mp (mem_akeys_of_alookup hla))
      exact ⟨i, la, rs, alookup_mem hla, hrs, Or.inl hrla⟩
    · obtain ⟨la, hla⟩ :=
        alookup_isSome_of_mem_akeys ((hk i).mpr (mem_akeys_of_alookup hlb))
      exact ⟨i, la, lb, alookup_mem hla, hlb, Or.inr hrlb⟩
  have hvals : valsOf m r = e.vals := by
    unfold valsOf
    rw [he]
  -- some exact scan match exists, so the scan takes its exact branch
  have hnonempty : ¬(exactGroupMatches r A = [] ∧ exactGroupMatches r B = []) := by
    rintro ⟨h1, h2⟩
    rcases hr with ⟨i, la, hla, hrla⟩ | ⟨i, lb, hlb, hrlb⟩
    · have : (i, la) ∈ exactGroupMatches r A :=
        List.mem_filter.mpr ⟨alookup_mem hla, by simpa using hrla⟩
      rw [h1] at this
      simp at this
    · have : (i, lb) ∈ exactGroupMatches r B :=
        List.mem_filter.mpr ⟨alookup_mem hlb, by simpa using hrlb⟩
      rw [h2] at this
      simp at this
  -- both collection loops succeed
  obtain ⟨out1, hout1, hmem1⟩ :=
    collectRels_spec B (exactGroupMatches r A) (by
      intro kv hkv
      have hkvA : kv ∈ A := (List.mem_filter.mp hkv).1
      have : kv.1 ∈ akeys A := List.mem_map.mpr ⟨kv, hkvA, rfl⟩
      exact alookup_isSome_of_mem_akeys ((hk kv.1).mp this))
  obtain ⟨out2, hout2, hmem2⟩ :=
    collectRels_spec A (exactGroupMatches r B) (by
      intro kv hkv
      have hkvB : kv ∈ B := (List.mem_filter.mp hkv).1
      have : kv.1 ∈ akeys B := List.mem_map.mpr ⟨kv, hkvB, rfl⟩
      exact alookup_isSome_of_mem_akeys ((hk kv.1).mpr this))
  refine ⟨m, e, out1 ++ out2, hm, he, ?_, ?_, ?_⟩
  · unfold dict_lookup
    rw [he]
  · rw [filter_lookup_exact_branch r A B hnonempty, hout1, hout2]
  · intro x
    rw [← hvals, hv r x, List.mem_append]
    constructor
    · rintro ⟨i, ps, rs, hmemA, hrs, hd | hd⟩
      · refine Or.inl ((hmem1 x).mpr ⟨(i, ps), rs, ?_, hrs, hd.2⟩)
        exact List.mem_filter.mpr ⟨hmemA, by simpa using hd.1⟩
      · refine Or.inr ((hmem2 x).mpr ⟨(i, rs), ps, ?_, ?_, hd.2⟩)
        · exact List.mem_filter.mpr ⟨alookup_mem hrs, by simpa using hd.1⟩
        · exact mem_alookup_of_nodup hA hmemA
    · rintro (hx | hx)
      · obtain ⟨kv, g, hkv, hgB, hxg⟩ := (hmem1 x).mp hx
        obtain ⟨i, ps⟩ := kv
        have hf := List.mem_filter.mp hkv
        exact ⟨i, ps, g, hf.1, hgB, Or.inl ⟨by simpa using hf.2, hxg⟩⟩
      · obtain ⟨kv, g, hkv, hgA, hxg⟩ := (hmem2 x).mp hx
        obtain ⟨i, rs⟩ := kv
        have hf := List.mem_filter.mp hkv
        exact ⟨i, g, rs, alookup_mem hgA, mem_alookup_of_nodup hB hf.1,
          Or.inr ⟨by simpa using hf.2, hxg⟩⟩

/-- C1 witness: the end-to-end example with equal key sets. -/
theorem index_scan_equiv_witness :
    ∃ m e res,
      build_bidirectional_dict [(0, ["Psa 2"])] [(0, ["Dan 7:28"])] = some m ∧
      smFind m "Psa 2" = some e ∧
      dict_lookup "Psa 2" m = PyVal.list (e.vals.map PyVal.str) ∧
      filter_lookup "Psa 2" [(0, ["Psa 2"])] [(0, ["Dan 7:28"])] = some res ∧
      (∀ x, x ∈ e.vals ↔ x ∈ res) :=
  index_scan_equiv [(0, ["Psa 2"])] [(0, ["Dan 7:28"])] (by decide) (by decide)
    (fun _ => Iff.rfl) "Psa 2" (Or.inl ⟨0, ["Psa 2"], rfl, by decide⟩)

/-! ## Character classes and span lemmas -/

theorem pySpace_cases {c : Char} (h : pySpace c = true) :
    c = ' ' ∨ c = '\t' ∨ c = '\n' ∨ c = '\r' ∨ c = '\x0b' ∨ c = '\x0c' := by
  unfold pySpace at h
  simp only [Bool.or_eq_true, decide_eq_true_eq] at h
  tauto

theorem pySpace_not_alnum {c : Char} (h : pySpace c = true) : isAlnumA c = false := by
  rcases pySpace_cases h with h | h | h | h | h | h <;> subst h <;> decide

theorem alnum_not_space {c : Char} (h : isAlnumA c = true) : pySpace c = false := by
  by_cases hs : pySpace c
  · rw [pySpace_not_alnum hs] at h
    exact absurd h (by simp)
  · simpa using hs

theorem digit_alnum {c : Char} (h : c.isDigit = true) : isAlnumA c = true := by
  unfold isAlnumA
  simp [h]

theorem digit_not_space {c : Char} (h : c.isDigit = true) : pySpace c = false :=
  alnum_not_space (digit_alnum h)

theorem span_eq_of {α : Type} (p : α → Bool) :
    ∀ (R rest : List α), (∀ c ∈ R, p c = true) →
      (∀ d, rest.head? = some d → p d = false) →
      (R ++ rest).takeWhile p = R ∧ (R ++ rest).dropWhile p = rest := by
  intro R
  induction R with
  | nil =>
    intro rest _ hrest
    cases rest with
    | nil => exact ⟨rfl, rfl⟩
    | cons d z =>
      have hd := hrest d rfl
      constructor
      · simp [List.takeWhile_cons, hd]
      · simp [List.dropWhile_cons, hd]
  | cons c R ih =>
    intro rest hR hrest
    have hc : p c = true := hR c (List.mem_cons_self _ _)
    obtain ⟨ht, hd⟩ := ih rest (fun x hx => hR x (List.mem_cons_of_mem _ hx)) hrest
    constructor
    · simpa [List.takeWhile_cons, hc] using ht
    · simpa [List.dropWhile_cons, hc] using hd

theorem all_not_dropWhile_ne {z : List Char} (h : ∀ c ∈ z, c ≠ '\n') :
    z.dropWhile (fun x => x ≠ '\n') = [] := by
  induction z with
  | nil => rfl
  | cons c cs ih =>
    have hc : c ≠ '\n' := h c (List.mem_cons_self _ _)
    rw [List.dropWhile_cons_of_pos (by simpa using hc)]
    exact ih (fun x hx => h x (List.mem_cons_of_mem _ hx))

/-- `re.match(r"([A-Za-z0-9]+)\s+(\d+)", l)` succeeds exactly when `l`
starts with a nonempty alphanumeric run, then nonempty whitespace, then a
digit (anything may follow). -/
theorem validateMatch_iff {l : List Char} :
    validateMatch l = true ↔
      ∃ R W d y, l = R ++ (W ++ d :: y) ∧ R ≠ [] ∧ (∀ c ∈ R, isAlnumA c = true) ∧
        W ≠ [] ∧ (∀ c ∈ W, pySpace c = true) ∧ d.isDigit = true := by
  constructor
  · intro h
    simp only [validateMatch, Bool.and_eq_true, Bool.not_eq_true',
      List.isEmpty_eq_false] at h
    obtain ⟨⟨hR, hW⟩, hd⟩ := h
    cases hr2 : (l.dropWhile isAlnumA).dropWhile pySpace with
    | nil => rw [hr2] at hd; simp at hd
    | cons d y =>
      rw [hr2] at hd
      refine ⟨l.takeWhile isAlnumA, (l.dropWhile isAlnumA).takeWhile pySpace, d, y,
        ?_, hR, ?_, hW, ?_, hd⟩
      · have e1 : (l.dropWhile isAlnumA).takeWhile pySpace ++ (d :: y) =
            l.dropWhile isAlnumA := by
          rw [← hr2]
          exact List.takeWhile_append_dropWhile pySpace (l.dropWhile isAlnumA)
        rw [e1]
        exact (List.takeWhile_append_dropWhile isAlnumA l).symm
      · exact fun c hc => List.mem_takeWhile_imp hc
      · exact fun c hc => List.mem_takeWhile_imp hc
  · rintro ⟨R, W, d, y, rfl, hRne, hR, hWne, hW, hd⟩
    have hWhead : ∀ e, (W ++ d :: y).head? = some e → isAlnumA e = false := by
      intro e he
      cases W with
      | nil => exact absurd rfl hWne
      | cons w0 W' =>
        simp only [List.cons_append, List.head?_cons, Option.some.injEq] at he
        subst he
        exact pySpace_not_alnum (hW w0 (List.mem_cons_self _ _))
    obtain ⟨ht1, hd1⟩ := span_eq_of isAlnumA R (W ++ d :: y) hR hWhead
    have hdhead : ∀ e, (d :: y).head? = some e → pySpace e = false := by
      intro e he
      simp only [List.head?_cons, Option.some.injEq] at he
      subst he
      exact digit_not_space hd
    obtain ⟨ht2, hd2⟩ := span_eq_of pySpace W (d :: y) hW hdhead
    simp only [validateMatch]
    rw [ht1, hd1, ht2, hd2]
    simp [List.isEmpty_iff, hRne, hWne, hd]

/-! ## C5: what the chapter-presence check accepts and rejects -/

/-- Modelled from the spec's grammar (§4.1, §3): a `CanonicalReference` is
`<book-token><space><chapter>[:<verse>]` with nothing after the optional
verse — a nonempty alphanumeric book token, one space, nonempty chapter
digits, optionally a colon and nonempty verse digits, end of string. This
is the comparison definition the claim's "grammar" refers to; the source
has no such anchored check. -/
def matchesGrammar (l : List Char) : Bool :=
  let tok := l.takeWhile isAlnumA
  let rest := l.dropWhile isAlnumA
  !tok.isEmpty &&
    match rest with
    | ' ' :: rest2 =>
      let ch := rest2.takeWhile Char.isDigit
      let rest3 := rest2.dropWhile Char.isDigit
      !ch.isEmpty &&
        (match rest3 with
         | [] => true
         | ':' :: vs => !vs.isEmpty && vs.all Char.isDigit
         | _ => false)
    | _ => false

/-- C5 counterexample: `normalize("abc 1 xyz")` succeeds and returns
`"Abc 1 Xyz"`, whose trailing ` Xyz` violates the grammar — the claimed
"rejected with FormatError for any trailing text" is false. -/
theorem normalize_grammar_cex :
    scripture_format_validator "abc 1 xyz".toList = Except.ok "Abc 1 Xyz".toList ∧
    matchesGrammar "Abc 1 Xyz".toList = false :=
  ⟨rfl, rfl⟩

/-- C5 amended: `normalize` raises `FormatError` exactly when its processed
result does not *start* with `<book-token><whitespace><digit>`; trailing
text beyond the optional verse is accepted (the check is an unanchored
prefix match). In particular `normalize("Hello")` fails with `FormatError`
(no chapter number). -/
theorem normalize_error_iff :
    (∀ l : List Char,
      (∃ e, scripture_format_validator l = Except.error e) ↔
        ¬ ∃ R W d y, normalizePre l = R ++ (W ++ d :: y) ∧ R ≠ [] ∧
          (∀ c ∈ R, isAlnumA c = true) ∧ W ≠ [] ∧ (∀ c ∈ W, pySpace c = true) ∧
          d.isDigit = true) ∧
    scripture_format_validator "Hello".toList = Except.error "Hel".toList := by
  refine ⟨?_, rfl⟩
  intro l
  unfold scripture_format_validator
  by_cases h : validateMatch (normalizePre l) = true
  · rw [if_pos h]
    simp only [reduceCtorEq, exists_false, false_iff, not_not]
    exact validateMatch_iff.mp h
  · rw [if_neg h]
    constructor
    · intro _
      intro hcontra
      exact h (validateMatch_iff.mpr hcontra)
    · intro _
      exact ⟨normalizePre l, rfl⟩

/-! ## C7: Psalm references are truncated to chapter granularity -/

/-- Splitting a validated string: the book token is the leading
alphanumeric run, followed by the whitespace run, followed by the chapter
digit. -/
theorem alnum_span_decomp {R W : List Char} {d : Char} {y : List Char}
    (hRal : ∀ c ∈ R, isAlnumA c = true) (hWne : W ≠ [])
    (hWs : ∀ c ∈ W, pySpace c = true) (hdd : d.isDigit = true) :
    (R ++ (W ++ d :: y)).takeWhile isAlnumA = R ∧
    (R ++ (W ++ d :: y)).dropWhile isAlnumA = W ++ d :: y ∧
    (W ++ d :: y).takeWhile pySpace = W ∧
    (W ++ d :: y).dropWhile pySpace = d :: y := by
  have hWhead : ∀ e, (W ++ d :: y).head? = some e → isAlnumA e = false := by
    intro e he
    cases W with
    | nil => exact absurd rfl hWne
    | cons w0 W' =>
      simp only [List.cons_append, List.head?_cons, Option.some.injEq] at he
      subst he
      exact pySpace_not_alnum (hWs w0 (List.mem_cons_self _ _))
  have hdhead : ∀ e, (d :: y).head? = some e → pySpace e = false := by
    intro e he
    simp only [List.head?_cons, Option.some.injEq] at he
    subst he
    exact digit_not_space hdd
  obtain ⟨h1, h2⟩ := span_eq_of isAlnumA R (W ++ d :: y) hRal hWhead
  obtain ⟨h3, h4⟩ := span_eq_of pySpace W (d :: y) hWs hdhead
  exact ⟨h1, h2, h3, h4⟩

/-- Every whitespace character in a `sub3` output is a plain space. -/
theorem sub3_space_blank : ∀ (l : List Char), ∀ c ∈ sub3 l, pySpace c = true → c = ' ' := by
  refine sub3_ind _ ?_ ?_ ?_
  · intro c hc
    rw [sub3_nil] at hc
    simp at hc
  · intro c cs hsp ih x hx hxs
    rw [sub3_cons, if_pos hsp] at hx
    rcases List.mem_cons.mp hx with h | h
    · exact h
    · exact ih x h hxs
  · intro c cs hsp ih x hx hxs
    rw [sub3_cons, if_neg (by simp [hsp])] at hx
    rcases List.mem_cons.mp hx with h | h
    · subst h
      rw [hsp] at hxs
      exact absurd hxs (by simp)
    · exact ih x h hxs

theorem colonTail_subset {l rest : List Char} (h : colonTail l = some rest) :
    ∀ c ∈ rest, c ∈ l := by
  unfold colonTail at h
  split at h
  next r2 heq =>
    simp only [Option.some.injEq] at h
    subst h
    intro c hc
    have h1 : c ∈ r2 := (List.dropWhile_sublist pySpace).subset hc
    have h2 : c ∈ (':' :: r2) := List.mem_cons_of_mem _ h1
    rw [← heq] at h2
    exact (List.dropWhile_sublist pySpace).subset h2
  next => simp at h

/-- Every character of a `sub4` output is a colon or a character of the
input. -/
theorem sub4_chars : ∀ (l : List Char), ∀ c ∈ sub4 l, c = ':' ∨ c ∈ l := by
  refine sub4_ind _ ?_ ?_ ?_
  · intro c hc
    rw [sub4_nil] at hc
    simp at hc
  · intro c cs rest hct ih x hx
    rw [sub4_cons] at hx
    simp only [hct] at hx
    rcases List.mem_cons.mp hx with h | h
    · exact Or.inl h
    · rcases ih x h with h1 | h1
      · exact Or.inl h1
      · exact Or.inr (colonTail_subset hct x h1)
  · intro c cs hct ih x hx
    rw [sub4_cons] at hx
    simp only [hct] at hx
    rcases List.mem_cons.mp hx with h | h
    · exact Or.inr (h ▸ List.mem_cons_self _ _)
    · rcases ih x h with h1 | h1
      · exact Or.inl h1
      · exact Or.inr (List.mem_cons_of_mem _ h1)

/-- The processed string contains no newline: `\s+ → ' '` has removed
every whitespace character other than the space, and the colon
substitution introduces only colons. -/
theorem normalizePre_no_newline (s : List Char) : '\n' ∉ normalizePre s := by
  intro hmem
  unfold normalizePre at hmem
  rcases sub4_chars _ '\n' hmem with h | h
  · exact absurd h (by decide)
  · have := sub3_space_blank _ '\n' h (by decide)
    exact absurd this (by decide)

/-- C7: when the book token of the processed reference is exactly `Psa`,
normalization succeeds with a chapter-granularity result: `Psa`, one
space, the chapter digits — and no colon ever appears in the result. -/
theorem psalm_chapter_granularity (s t : List Char)
    (hok : scripture_format_validator s = Except.ok t)
    (htok : (normalizePre s).takeWhile isAlnumA = ['P', 's', 'a']) :
    (∃ ds, ds ≠ [] ∧ (∀ c ∈ ds, c.isDigit = true) ∧
      t = ['P', 's', 'a', ' '] ++ ds) ∧ ':' ∉ t := by
  unfold scripture_format_validator at hok
  by_cases hv : validateMatch (normalizePre s) = true
  · rw [if_pos hv] at hok
    injection hok with hok
    obtain ⟨R, W, d, y, hsplit, hRne, hRal, hWne, hWs, hdd⟩ := validateMatch_iff.mp hv
    obtain ⟨ht1, ht2, ht3, ht4⟩ := alnum_span_decomp hRal hWne hWs hdd
    have hR : R = ['P', 's', 'a'] := by
      rw [← ht1, ← hsplit, htok]
    subst hR
    have hshape : normalizePre s = 'P' :: 's' :: 'a' :: (W ++ d :: y) := by
      rw [hsplit]; rfl
    have hz : ((d :: y).dropWhile Char.isDigit).dropWhile (fun x => x ≠ '\n') = [] := by
      apply all_not_dropWhile_ne
      intro c hc
      intro hceq
      subst hceq
      have h1 : '\n' ∈ (d :: y) := (List.dropWhile_sublist Char.isDigit).subset hc
      have h2 : '\n' ∈ normalizePre s := by
        rw [hshape]
        refine List.mem_cons_of_mem _ (List.mem_cons_of_mem _ (List.mem_cons_of_mem _ ?_))
        exact List.mem_append.mpr (Or.inr h1)
      exact normalizePre_no_newline s h2
    have hps : psaMatch (normalizePre s) =
        some (d :: y.takeWhile Char.isDigit, []) := by
      rw [hshape]
      simp only [psaMatch]
      rw [if_pos (by simp : True ∧ True ∧ True)]
      simp only [ht4, List.takeWhile_cons_of_pos hdd, List.dropWhile_cons_of_pos hdd]
      rw [if_neg (by simp)]
      rw [List.dropWhile_cons_of_pos hdd] at hz
      rw [hz]
    have ht : t = ['P', 's', 'a', ' '] ++ (d :: y.takeWhile Char.isDigit) := by
      rw [← hok, hshape]
      rw [show ('P' :: 's' :: 'a' :: (W ++ d :: y)) =
        'P' :: ('s' :: 'a' :: (W ++ d :: y)) from rfl]
      rw [sub6_cons]
      rw [← hshape, hps]
      simp [sub6_nil]
    refine ⟨⟨d :: y.takeWhile Char.isDigit, by simp, ?_, ht⟩, ?_⟩
    · intro c hc
      rcases List.mem_cons.mp hc with h | h
      · exact h ▸ hdd
      · exact List.mem_takeWhile_imp h
    · rw [ht]
      intro hc
      rcases List.mem_append.mp hc with h | h
      · exact absurd h (by decide)
      · rcases List.mem_cons.mp h with h1 | h1
        · rw [← h1] at hdd
          exact absurd hdd (by decide)
        · have := List.mem_takeWhile_imp h1
          exact absurd this (by decide)
  · rw [if_neg hv] at hok
    exact absurd hok (by simp)

/-- C7 witness: `normalize("Psa 23:1") = "Psa 23"`, verse suffix dropped,
no colon in the result. -/
theorem psalm_chapter_granularity_witness :
    (∃ ds, ds ≠ [] ∧ (∀ c ∈ ds, c.isDigit = true) ∧
      "Psa 23".toList = ['P', 's', 'a', ' '] ++ ds) ∧ ':' ∉ "Psa 23".toList :=
  psalm_chapter_granularity "Psa 23:1".toList "Psa 23".toList rfl (by decide)

/-! ## C3: idempotence of the normalizer

### Character groundwork for `str.title()` -/

theorem uint32_le_iff (a b : UInt32) : a ≤ b ↔ a.toNat ≤ b.toNat := by
  rw [UInt32.le_def, BitVec.le_def]
  exact Iff.rfl

theorem char_toNat_ofNat {n : Nat} (h : n.isValidChar) : (Char.ofNat n).toNat = n := by
  unfold Char.ofNat
  rw [dif_pos h]
  rfl

theorem isDigit_iff {c : Char} : c.isDigit = true ↔ 48 ≤ c.toNat ∧ c.toNat ≤ 57 := by
  show (decide (48 ≤ c.val) && decide (c.val ≤ 57)) = true ↔ _
  rw [Bool.and_eq_true, decide_eq_true_eq, decide_eq_true_eq,
    uint32_le_iff, uint32_le_iff]
  exact Iff.rfl

theorem isUpper_iff {c : Char} : c.isUpper = true ↔ 65 ≤ c.toNat ∧ c.toNat ≤ 90 := by
  show (decide (65 ≤ c.val) && decide (c.val ≤ 90)) = true ↔ _
  rw [Bool.and_eq_true, decide_eq_true_eq, decide_eq_true_eq,
    uint32_le_iff, uint32_le_iff]
  exact Iff.rfl

theorem isLower_iff {c : Char} : c.isLower = true ↔ 97 ≤ c.toNat ∧ c.toNat ≤ 122 := by
  show (decide (97 ≤ c.val) && decide (c.val ≤ 122)) = true ↔ _
  rw [Bool.and_eq_true, decide_eq_true_eq, decide_eq_true_eq,
    uint32_le_iff, uint32_le_iff]
  exact Iff.rfl

theorem isAlpha_iff {c : Char} : c.isAlpha = true ↔
    (65 ≤ c.toNat ∧ c.toNat ≤ 90) ∨ (97 ≤ c.toNat ∧ c.toNat ≤ 122) := by
  unfold Char.isAlpha
  rw [Bool.or_eq_true, isUpper_iff, isLower_iff]

theorem toLower_of_upper {c : Char} (h : 65 ≤ c.toNat ∧ c.toNat ≤ 90) :
    c.toLower.toNat = c.toNat + 32 := by
  unfold Char.toLower
  rw [if_pos h]
  exact char_toNat_ofNat (Or.inl (by omega))

theorem toLower_of_not_upper {c : Char} (h : ¬(65 ≤ c.toNat ∧ c.toNat ≤ 90)) :
    c.toLower = c := by
  unfold Char.toLower
  rw [if_neg h]

theorem toUpper_of_lower {c : Char} (h : 97 ≤ c.toNat ∧ c.toNat ≤ 122) :
    c.toUpper.toNat = c.toNat - 32 := by
  unfold Char.toUpper
  rw [if_pos h]
  exact char_toNat_ofNat (Or.inl (by omega))

theorem toUpper_of_not_lower {c : Char} (h : ¬(97 ≤ c.toNat ∧ c.toNat ≤ 122)) :
    c.toUpper = c := by
  unfold Char.toUpper
  rw [if_neg h]

theorem isAlpha_toLower (c : Char) : c.toLower.isAlpha = c.isAlpha := by
  by_cases h : 65 ≤ c.toNat ∧ c.toNat ≤ 90
  · have h1 := toLower_of_upper h
    have h2 : c.toLower.isAlpha = true := isAlpha_iff.mpr (Or.inr (by omega))
    have h3 : c.isAlpha = true := isAlpha_iff.mpr (Or.inl h)
    rw [h2, h3]
  · rw [toLower_of_not_upper h]

theorem isAlpha_toUpper (c : Char) : c.toUpper.isAlpha = c.isAlpha := by
  by_cases h : 97 ≤ c.toNat ∧ c.toNat ≤ 122
  · have h1 := toUpper_of_lower h
    have h2 : c.toUpper.isAlpha = true := isAlpha_iff.mpr (Or.inl (by omega))
    have h3 : c.isAlpha = true := isAlpha_iff.mpr (Or.inr h)
    rw [h2, h3]
  · rw [toUpper_of_not_lower h]

theorem toLower_toLower (c : Char) : c.toLower.toLower = c.toLower := by
  by_cases h : 65 ≤ c.toNat ∧ c.toNat ≤ 90
  · have h1 := toLower_of_upper h
    exact toLower_of_not_upper (by omega)
  · rw [toLower_of_not_upper h, toLower_of_not_upper h]

theorem toUpper_toUpper (c : Char) : c.toUpper.toUpper = c.toUpper := by
  by_cases h : 97 ≤ c.toNat ∧ c.toNat ≤ 122
  · have h1 := toUpper_of_lower h
    exact toUpper_of_not_lower (by omega)
  · rw [toUpper_of_not_lower h, toUpper_of_not_lower h]

theorem digit_not_alpha {c : Char} (h : c.isDigit = true) : c.isAlpha = false := by
  rw [isDigit_iff] at h
  by_cases ha : c.isAlpha = true
  · rw [isAlpha_iff] at ha
    omega
  · simpa using ha

theorem pySpace_not_alpha {c : Char} (h : pySpace c = true) : c.isAlpha = false := by
  have := pySpace_not_alnum h
  unfold isAlnumA at this
  simp only [Bool.or_eq_false_iff] at this
  exact this.1

theorem alpha_alnum {c : Char} (h : c.isAlpha = true) : isAlnumA c = true := by
  unfold isAlnumA
  simp [h]

/-! ### The title-case shape of a string -/

/-- The "previous character was cased" flag after processing `l`. -/
def flagEnd (b : Bool) (l : List Char) : Bool := l.foldl (fun _ c => c.isAlpha) b

/-- `titledB b l`: `l` is a fixpoint of `titleGo b` — every alphabetic
character is lowercase after a cased character and uppercase after a
non-cased one. -/
def titledB : Bool → List Char → Bool
  | _, [] => true
  | b, c :: cs =>
    ((!c.isAlpha) || (if b then c.toLower == c else c.toUpper == c)) &&
      titledB c.isAlpha cs

theorem flagEnd_nil (b : Bool) : flagEnd b [] = b := rfl

theorem flagEnd_cons (b : Bool) (c : Char) (cs : List Char) :
    flagEnd b (c :: cs) = flagEnd c.isAlpha cs := rfl

theorem flagEnd_append (b : Bool) (x y : List Char) :
    flagEnd b (x ++ y) = flagEnd (flagEnd b x) y := by
  unfold flagEnd
  rw [List.foldl_append]

theorem flagEnd_false_of_nonalpha {l : List Char}
    (h : ∀ c ∈ l, c.isAlpha = false) : flagEnd false l = false := by
  induction l with
  | nil => rfl
  | cons c cs ih =>
    rw [flagEnd_cons, h c (List.mem_cons_self _ _)]
    exact ih (fun x hx => h x (List.mem_cons_of_mem _ hx))

theorem flagEnd_nonalpha_ne {l : List Char} (b : Bool) (hne : l ≠ [])
    (h : ∀ c ∈ l, c.isAlpha = false) : flagEnd b l = false := by
  cases l with
  | nil => exact absurd rfl hne
  | cons c cs =>
    rw [flagEnd_cons, h c (List.mem_cons_self _ _)]
    exact flagEnd_false_of_nonalpha (fun x hx => h x (List.mem_cons_of_mem _ hx))

theorem titledB_append (x : List Char) :
    ∀ (b : Bool) (y : List Char),
      titledB b (x ++ y) = (titledB b x && titledB (flagEnd b x) y) := by
  induction x with
  | nil => intro b y; simp [titledB, flagEnd_nil]
  | cons c x' ih =>
    intro b y
    show (((!c.isAlpha) || (if b then c.toLower == c else c.toUpper == c)) &&
        titledB c.isAlpha (x' ++ y)) = _
    rw [ih c.isAlpha y, flagEnd_cons, ← Bool.and_assoc]
    rfl

theorem titledB_cons_nonalpha {c : Char} (h : c.isAlpha = false)
    (b1 b2 : Bool) (r : List Char) : titledB b1 (c :: r) = titledB b2 (c :: r) := by
  unfold titledB
  rw [h]
  simp

theorem titledB_of_nonalpha {l : List Char}
    (h : ∀ c ∈ l, c.isAlpha = false) : ∀ b, titledB b l = true := by
  induction l with
  | nil => intro b; rfl
  | cons c cs ih =>
    intro b
    unfold titledB
    rw [h c (List.mem_cons_self _ _)]
    simp only [Bool.not_false, Bool.true_or, Bool.true_and]
    exact ih (fun x hx => h x (List.mem_cons_of_mem _ hx)) false

theorem titled_head_iff (b : Bool) (c : Char) :
    ((!c.isAlpha) || (if b then c.toLower == c else c.toUpper == c)) = true ↔
      (if c.isAlpha then (if b then c.toLower else c.toUpper) else c) = c := by
  by_cases ha : c.isAlpha
  · rw [if_pos ha, ha]
    simp only [Bool.not_true, Bool.false_or]
    cases b with
    | false => simp [beq_iff_eq]
    | true => simp [beq_iff_eq]
  · have ha' : c.isAlpha = false := by simpa using ha
    rw [if_neg ha, ha']
    simp

theorem titledB_iff (l : List Char) :
    ∀ b, titledB b l = true ↔ titleGo b l = l := by
  induction l with
  | nil => intro b; simp [titledB, titleGo]
  | cons c cs ih =>
    intro b
    show (((!c.isAlpha) || (if b then c.toLower == c else c.toUpper == c)) &&
        titledB c.isAlpha cs) = true ↔
      ((if c.isAlpha then (if b then c.toLower else c.toUpper) else c) ::
        titleGo c.isAlpha cs) = c :: cs
    rw [Bool.and_eq_true, titled_head_iff b c, ih c.isAlpha, List.cons_eq_cons]

theorem titledB_titleGo (l : List Char) :
    ∀ b, titledB b (titleGo b l) = true := by
  induction l with
  | nil => intro b; rfl
  | cons c cs ih =>
    intro b
    have hIH := ih c.isAlpha
    by_cases ha : c.isAlpha
    · cases b with
      | false =>
        have h1 : titleGo false (c :: cs) = c.toUpper :: titleGo c.isAlpha cs := by
          show (if c.isAlpha then c.toUpper else c) :: titleGo c.isAlpha cs = _
          rw [if_pos ha]
        rw [h1]
        show (((!c.toUpper.isAlpha) || (c.toUpper.toUpper == c.toUpper)) &&
          titledB c.toUpper.isAlpha (titleGo c.isAlpha cs)) = true
        rw [Bool.and_eq_true, isAlpha_toUpper]
        exact ⟨by simp [toUpper_toUpper], hIH⟩
      | true =>
        have h1 : titleGo true (c :: cs) = c.toLower :: titleGo c.isAlpha cs := by
          show (if c.isAlpha then c.toLower else c) :: titleGo c.isAlpha cs = _
          rw [if_pos ha]
        rw [h1]
        show (((!c.toLower.isAlpha) || (c.toLower.toLower == c.toLower)) &&
          titledB c.toLower.isAlpha (titleGo c.isAlpha cs)) = true
        rw [Bool.and_eq_true, isAlpha_toLower]
        exact ⟨by simp [toLower_toLower], hIH⟩
    · have ha' : c.isAlpha = false := by simpa using ha
      have h1 : titleGo b (c :: cs) = c :: titleGo c.isAlpha cs := by
        show (if c.isAlpha then (if b then c.toLower else c.toUpper) else c) ::
          titleGo c.isAlpha cs = _
        rw [if_neg ha]
      rw [h1]
      show (((!c.isAlpha) || (if b then c.toLower == c else c.toUpper == c)) &&
        titledB c.isAlpha (titleGo c.isAlpha cs)) = true
      rw [Bool.and_eq_true]
      exact ⟨by simp [ha'], hIH⟩

/-! ### Title shape is preserved by every stage of the pipeline -/

theorem isAlnumA_false_not_alpha {c : Char} (h : isAlnumA c = false) :
    c.isAlpha = false := by
  unfold isAlnumA at h
  simp only [Bool.or_eq_false_iff] at h
  exact h.1

theorem band_iff {a b : Bool} : (a && b) = true ↔ a = true ∧ b = true := by simp

theorem dropWhile_head_false {α : Type} {p : α → Bool} :
    ∀ (l : List α) {c r}, l.dropWhile p = c :: r → p c = false := by
  intro l
  induction l with
  | nil => intro c r h; simp at h
  | cons x xs ih =>
    intro c r h
    by_cases hx : p x
    · rw [List.dropWhile_cons_of_pos hx] at h
      exact ih h
    · rw [List.dropWhile_cons_of_neg hx] at h
      injection h with h1 _
      subst h1
      simpa using hx

theorem titledB_cons_iff {b : Bool} {c : Char} {r : List Char} :
    titledB b (c :: r) = true ↔
      (((!c.isAlpha) || (if b then c.toLower == c else c.toUpper == c)) = true ∧
        titledB c.isAlpha r = true) := by
  show (_ && _) = true ↔ _
  exact band_iff

theorem titledB_cons_of_nonalpha {c : Char} (h : c.isAlpha = false) {r : List Char}
    (hr : titledB false r = true) (b : Bool) : titledB b (c :: r) = true := by
  rw [titledB_cons_iff, h]
  exact ⟨by simp, hr⟩

theorem titledB_cons_intro {b : Bool} {c : Char} {r r' : List Char}
    (h : titledB b (c :: r) = true) (h2 : titledB c.isAlpha r' = true) :
    titledB b (c :: r') = true := by
  rw [titledB_cons_iff] at h ⊢
  exact ⟨h.1, h2⟩

theorem titledB_of_append_left {b : Bool} {x y : List Char}
    (h : titledB b (x ++ y) = true) : titledB b x = true := by
  rw [titledB_append] at h
  exact (band_iff.mp h).1

theorem titledB_dropWhile_ws {l : List Char} (h : titledB false l = true) :
    titledB false (l.dropWhile pySpace) = true := by
  have hsplit := List.takeWhile_append_dropWhile pySpace l
  rw [← hsplit, titledB_append] at h
  have hflag : flagEnd false (l.takeWhile pySpace) = false :=
    flagEnd_false_of_nonalpha
      (fun c hc => pySpace_not_alpha (List.mem_takeWhile_imp hc))
  rw [hflag] at h
  exact (band_iff.mp h).2

theorem titled_pyTitle (s : List Char) : titledB false (pyTitle s) = true :=
  titledB_titleGo s false

theorem titled_pyStrip {l : List Char} (h : titledB false l = true) :
    titledB false (pyStrip l) = true := by
  unfold pyStrip
  have hu : titledB false (l.dropWhile pySpace) = true := titledB_dropWhile_ws h
  have hsplit : l.dropWhile pySpace =
      ((l.dropWhile pySpace).reverse.dropWhile pySpace).reverse ++
        ((l.dropWhile pySpace).reverse.takeWhile pySpace).reverse := by
    rw [← List.reverse_append, List.takeWhile_append_dropWhile, List.reverse_reverse]
  rw [hsplit] at hu
  exact titledB_of_append_left hu

/-- Case analysis of `sub1`: either it changes nothing, or the string
splits as digits, whitespace, letter, rest and the whitespace is removed. -/
theorem sub1_eq (l : List Char) :
    sub1 l = l ∨ ∃ ds w a rest, l = ds ++ (w ++ a :: rest) ∧ ds ≠ [] ∧
      (∀ c ∈ ds, c.isDigit = true) ∧ w ≠ [] ∧ (∀ c ∈ w, pySpace c = true) ∧
      a.isAlpha = true ∧ sub1 l = ds ++ a :: rest := by
  cases hds : l.takeWhile Char.isDigit with
  | nil =>
    left
    simp only [sub1, hds]
  | cons d0 ds' =>
    cases hw : (l.dropWhile Char.isDigit).takeWhile pySpace with
    | nil =>
      left
      simp only [sub1, hds, hw]
    | cons w0 w' =>
      cases hr2 : (l.dropWhile Char.isDigit).dropWhile pySpace with
      | nil =>
        left
        simp only [sub1, hds, hw, hr2]
      | cons a rest =>
        by_cases ha : a.isAlpha
        · right
          refine ⟨d0 :: ds', w0 :: w', a, rest, ?_, by simp, ?_, by simp, ?_, ha, ?_⟩
          · rw [← hds, ← hw, ← hr2, List.takeWhile_append_dropWhile,
              List.takeWhile_append_dropWhile]
          · intro c hc
            rw [← hds] at hc
            exact List.mem_takeWhile_imp hc
          · intro c hc
            rw [← hw] at hc
            exact List.mem_takeWhile_imp hc
          · simp only [sub1, hds, hw, hr2, if_pos ha]
        · left
          simp only [sub1, hds, hw, hr2, if_neg ha]

theorem titled_sub1 {l : List Char} (h : titledB false l = true) :
    titledB false (sub1 l) = true := by
  rcases sub1_eq l with he | ⟨ds, w, a, rest, hsplit, _, hdig, hwne, hws, _, he⟩
  · rw [he]; exact h
  · rw [he]
    rw [hsplit, titledB_append] at h
    obtain ⟨hds, h2⟩ := band_iff.mp h
    have hflag1 : flagEnd false ds = false :=
      flagEnd_false_of_nonalpha (fun c hc => digit_not_alpha (hdig c hc))
    rw [hflag1, titledB_append] at h2
    obtain ⟨hw2, h3⟩ := band_iff.mp h2
    have hflag2 : flagEnd false w = false :=
      flagEnd_false_of_nonalpha (fun c hc => pySpace_not_alpha (hws c hc))
    rw [hflag2] at h3
    rw [titledB_append, hflag1]
    exact band_iff.mpr ⟨hds, h3⟩

theorem titled_sub2 {l : List Char} (h : titledB false l = true) :
    titledB false (sub2 l) = true := by
  unfold sub2
  by_cases hr : (l.takeWhile isAlnumA).isEmpty
  · rw [if_pos hr]; exact h
  · rw [if_neg hr]
    have hsplit := (List.takeWhile_append_dropWhile isAlnumA l).symm
    rw [hsplit, titledB_append] at h
    obtain ⟨hrun, hrest⟩ := band_iff.mp h
    have htake : titledB false ((l.takeWhile isAlnumA).take 3) = true := by
      have : l.takeWhile isAlnumA =
          (l.takeWhile isAlnumA).take 3 ++ (l.takeWhile isAlnumA).drop 3 :=
        (List.take_append_drop 3 _).symm
      rw [this] at hrun
      exact titledB_of_append_left hrun
    rw [titledB_append]
    refine band_iff.mpr ⟨htake, ?_⟩
    cases hdw : l.dropWhile isAlnumA with
    | nil => rfl
    | cons r0 rest' =>
      have hr0 : r0.isAlpha = false :=
        isAlnumA_false_not_alpha (dropWhile_head_false _ hdw)
      rw [hdw] at hrest
      rw [titledB_cons_nonalpha hr0 _ (flagEnd false (l.takeWhile isAlnumA))]
      exact hrest

theorem titled_sub3 : ∀ (l : List Char) (b : Bool),
    titledB b l = true → titledB b (sub3 l) = true := by
  refine sub3_ind (fun l => ∀ b, titledB b l = true → titledB b (sub3 l) = true)
    ?_ ?_ ?_
  · intro b h
    rw [sub3_nil]
    exact h
  · intro c cs hsp ih b h
    rw [sub3_cons, if_pos hsp]
    obtain ⟨-, htail⟩ := titledB_cons_iff.mp h
    have hca : c.isAlpha = false := pySpace_not_alpha hsp
    rw [hca] at htail
    have hdrop : titledB false (cs.dropWhile pySpace) = true := titledB_dropWhile_ws htail
    exact titledB_cons_of_nonalpha (by decide) (ih false hdrop) b
  · intro c cs hsp ih b h
    rw [sub3_cons, if_neg (by simp [hsp])]
    obtain ⟨-, htail⟩ := titledB_cons_iff.mp h
    exact titledB_cons_intro h (ih c.isAlpha htail)

theorem colonTail_some_inv {l rest : List Char} (h : colonTail l = some rest) :
    ∃ w r2, l = w ++ ':' :: r2 ∧ (∀ c ∈ w, pySpace c = true) ∧
      rest = r2.dropWhile pySpace ∧ l.dropWhile pySpace = ':' :: r2 := by
  unfold colonTail at h
  split at h
  next r2 heq =>
    simp only [Option.some.injEq] at h
    refine ⟨l.takeWhile pySpace, r2, ?_, fun c hc => List.mem_takeWhile_imp hc,
      h.symm, heq⟩
    rw [← heq, List.takeWhile_append_dropWhile]
  next => simp at h

theorem titled_sub4 : ∀ (l : List Char) (b : Bool),
    titledB b l = true → titledB b (sub4 l) = true := by
  refine sub4_ind (fun l => ∀ b, titledB b l = true → titledB b (sub4 l) = true)
    ?_ ?_ ?_
  · intro b h
    rw [sub4_nil]
    exact h
  · intro c cs rest hct ih b h
    rw [sub4_cons]
    simp only [hct]
    obtain ⟨w, r2, hsplit, hws, hrest, -⟩ := colonTail_some_inv hct
    rw [hsplit, titledB_append] at h
    obtain ⟨-, h2⟩ := band_iff.mp h
    rw [titledB_cons_nonalpha (by decide) _ false] at h2
    obtain ⟨-, h3⟩ := titledB_cons_iff.mp h2
    have hcolon : (':' : Char).isAlpha = false := by decide
    rw [hcolon] at h3
    have hr2 : titledB false (r2.dropWhile pySpace) = true := titledB_dropWhile_ws h3
    rw [← hrest] at hr2
    exact titledB_cons_of_nonalpha (by decide) (ih false hr2) b
  · intro c cs hct ih b h
    rw [sub4_cons]
    simp only [hct]
    obtain ⟨-, htail⟩ := titledB_cons_iff.mp h
    exact titledB_cons_intro h (ih c.isAlpha htail)

/-- The whole pipeline yields a title-shaped string. -/
theorem titled_normalizePre (s : List Char) :
    titledB false (normalizePre s) = true :=
  titled_sub4 _ false (titled_sub3 _ false (titled_sub2 (titled_sub1
    (titled_pyStrip (titled_pyTitle s)))))

/-! ### Whitespace invariants established by the pipeline -/

/-- Every whitespace character is a plain space. -/
def spacesBlank (l : List Char) : Prop := ∀ c ∈ l, pySpace c = true → c = ' '

/-- No two adjacent whitespace characters. -/
def noAdjSpace (l : List Char) : Prop :=
  l.Chain' (fun a b => ¬(pySpace a = true ∧ pySpace b = true))

/-- No whitespace adjacent to a colon on either side. -/
def noColonSpace (l : List Char) : Prop :=
  l.Chain' (fun a b => ¬(a = ':' ∧ pySpace b = true) ∧ ¬(pySpace a = true ∧ b = ':'))

/-- The last character (if any) is not whitespace. -/
def lastNonWs (l : List Char) : Prop :=
  ∀ d, l.getLast? = some d → pySpace d = false

theorem getLast?_append_right {l1 l2 : List Char} (h : l2 ≠ []) :
    (l1 ++ l2).getLast? = l2.getLast? := by
  rw [List.getLast?_append]
  cases hg : l2.getLast? with
  | some d => rfl
  | none => exact absurd (List.getLast?_eq_none_iff.mp hg) h

theorem lastNonWs_of_append {x y : List Char} (hy : y ≠ [])
    (h : lastNonWs (x ++ y)) : lastNonWs y := by
  intro d hd
  exact h d (by rw [getLast?_append_right hy]; exact hd)

theorem getLast?_cons_ne_nil {c : Char} {cs : List Char} (h : cs ≠ []) :
    (c :: cs).getLast? = cs.getLast? := by
  show ([c] ++ cs).getLast? = cs.getLast?
  exact getLast?_append_right h

theorem sub3_ne_nil (c : Char) (cs : List Char) : sub3 (c :: cs) ≠ [] := by
  rw [sub3_cons]
  by_cases h : pySpace c
  · rw [if_pos h]; simp
  · rw [if_neg h]; simp

theorem sub4_ne_nil (c : Char) (cs : List Char) : sub4 (c :: cs) ≠ [] := by
  rw [sub4_cons]
  cases hct : colonTail (c :: cs) with
  | some rest => simp
  | none => simp

theorem sub3_head_shape (c : Char) (cs : List Char) :
    ∃ z, sub3 (c :: cs) = (if pySpace c then ' ' else c) :: z := by
  rw [sub3_cons]
  by_cases h : pySpace c
  · rw [if_pos h, if_pos h]; exact ⟨_, rfl⟩
  · rw [if_neg h, if_neg h]; exact ⟨_, rfl⟩

/-- `sub3` yields no adjacent whitespace. -/
theorem sub3_noAdjSpace : ∀ (l : List Char), noAdjSpace (sub3 l) := by
  refine sub3_ind (fun l => noAdjSpace (sub3 l)) ?_ ?_ ?_
  · show noAdjSpace (sub3 [])
    rw [sub3_nil]
    exact List.chain'_nil
  · intro c cs hsp ih
    rw [sub3_cons, if_pos hsp]
    rw [noAdjSpace, List.chain'_cons']
    refine ⟨?_, ih⟩
    intro h hh
    cases hdw : cs.dropWhile pySpace with
    | nil =>
      rw [hdw, sub3_nil] at hh
      simp at hh
    | cons d z =>
      have hd : pySpace d = false := dropWhile_head_false _ hdw
      obtain ⟨z', hz'⟩ := sub3_head_shape d z
      rw [hdw, hz', if_neg (by simp [hd])] at hh
      simp only [List.head?_cons, Option.mem_def, Option.some.injEq] at hh
      subst hh
      simp [hd]
  · intro c cs hsp ih
    rw [sub3_cons, if_neg (by simp [hsp])]
    rw [noAdjSpace, List.chain'_cons']
    refine ⟨?_, ih⟩
    intro h _
    simp [hsp]

theorem chain'_of_append_right {R : Char → Char → Prop} {x y : List Char}
    (h : List.Chain' R (x ++ y)) : List.Chain' R y :=
  ((List.chain'_append.mp h).2).1

theorem noAdjSpace_tail {c : Char} {cs : List Char} (h : noAdjSpace (c :: cs)) :
    noAdjSpace cs := (List.chain'_cons'.mp h).2

theorem noAdjSpace_dropWhile {p : Char → Bool} {l : List Char}
    (h : noAdjSpace l) : noAdjSpace (l.dropWhile p) := by
  have : l = l.takeWhile p ++ l.dropWhile p := (List.takeWhile_append_dropWhile p l).symm
  rw [this] at h
  exact chain'_of_append_right h

theorem colonTail_colon (cs : List Char) :
    colonTail (':' :: cs) = some (cs.dropWhile pySpace) := by
  unfold colonTail
  rw [List.dropWhile_cons_of_neg (by decide)]
  rfl

theorem colonTail_cons_ws {c : Char} (h : pySpace c = true) (cs : List Char) :
    colonTail (c :: cs) = colonTail cs := by
  unfold colonTail
  rw [List.dropWhile_cons_of_pos h]

theorem colonTail_cons_plain {c : Char} (hws : pySpace c = false) (hc : c ≠ ':')
    (cs : List Char) : colonTail (c :: cs) = none := by
  unfold colonTail
  rw [List.dropWhile_cons_of_neg (by simp [hws])]
  split
  next r2 heq =>
    injection heq with h1 _
    exact absurd h1 hc
  next => rfl

theorem sub4_head_shape : ∀ (l : List Char),
    (sub4 l).head? = some ':' ∨ (sub4 l).head? = l.head? := by
  intro l
  cases l with
  | nil => right; rfl
  | cons c cs =>
    rw [sub4_cons]
    cases hct : colonTail (c :: cs) with
    | some rest => left; rfl
    | none => right; rfl

theorem sub4_head_colon {l : List Char} (h : (sub4 l).head? = some ':') :
    ∃ r, colonTail l = some r := by
  cases l with
  | nil => rw [sub4_nil] at h; simp at h
  | cons c cs =>
    cases hct : colonTail (c :: cs) with
    | some rest => exact ⟨rest, rfl⟩
    | none =>
      rw [sub4_cons] at h
      simp only [hct, List.head?_cons, Option.some.injEq] at h
      subst h
      rw [colonTail_colon cs] at hct
      exact absurd hct (by simp)

/-- `sub4` output has no whitespace adjacent to a colon. -/
theorem sub4_noColonSpace : ∀ (l : List Char), noColonSpace (sub4 l) := by
  refine sub4_ind (fun l => noColonSpace (sub4 l)) ?_ ?_ ?_
  · show noColonSpace (sub4 [])
    rw [sub4_nil]
    exact List.chain'_nil
  · intro c cs rest hct ih
    rw [sub4_cons]
    simp only [hct]
    rw [noColonSpace, List.chain'_cons']
    refine ⟨?_, ih⟩
    intro h hh
    rcases sub4_head_shape rest with hs | hs
    · rw [hs] at hh
      simp only [Option.mem_def, Option.some.injEq] at hh
      subst hh
      exact ⟨fun hp => absurd hp.2 (by decide), fun hp => absurd hp.1 (by decide)⟩
    · rw [hs] at hh
      obtain ⟨w, r2, hsplit, hws2, hrest, -⟩ := colonTail_some_inv hct
      cases hr : rest with
      | nil => rw [hr] at hh; simp at hh
      | cons d z =>
        rw [hr] at hh
        simp only [List.head?_cons, Option.mem_def, Option.some.injEq] at hh
        have hd : pySpace d = false := by
          rw [hrest] at hr
          exact dropWhile_head_false _ hr
        rw [← hh]
        exact ⟨fun hp => by rw [hd] at hp; exact absurd hp.2 (by simp),
          fun hp => absurd hp.1 (by decide)⟩
  · intro c cs hct ih
    rw [sub4_cons]
    simp only [hct]
    rw [noColonSpace, List.chain'_cons']
    refine ⟨?_, ih⟩
    intro h hh
    have hcnc : c ≠ ':' := by
      intro he
      rw [he, colonTail_colon] at hct
      exact absurd hct (by simp)
    rcases sub4_head_shape cs with hs | hs
    · rw [hs] at hh
      simp only [Option.mem_def, Option.some.injEq] at hh
      subst hh
      have hcws : pySpace c = false := by
        by_contra hcw
        have hcw' : pySpace c = true := by simpa using hcw
        obtain ⟨r, hr⟩ := sub4_head_colon hs
        rw [colonTail_cons_ws hcw' cs, hr] at hct
        exact absurd hct (by simp)
      exact ⟨fun hp => absurd hp.2 (by decide),
        fun hp => by rw [hcws] at hp; exact absurd hp.1 (by simp)⟩
    · rw [hs] at hh
      cases hcs : cs with
      | nil => rw [hcs] at hh; simp at hh
      | cons e cs' =>
        rw [hcs] at hh
        simp only [List.head?_cons, Option.mem_def, Option.some.injEq] at hh
        rw [← hh]
        refine ⟨fun hp => absurd hp.1 hcnc, ?_⟩
        rintro ⟨hcw, hhc⟩
        rw [hcs] at hct
        rw [hhc] at hct
        rw [colonTail_cons_ws hcw, colonTail_colon] at hct
        exact absurd hct (by simp)

/-- `sub4` preserves the absence of adjacent whitespace. -/
theorem sub4_noAdjSpace : ∀ (l : List Char), noAdjSpace l → noAdjSpace (sub4 l) := by
  refine sub4_ind (fun l => noAdjSpace l → noAdjSpace (sub4 l)) ?_ ?_ ?_
  · intro _
    show noAdjSpace (sub4 [])
    rw [sub4_nil]
    exact List.chain'_nil
  · intro c cs rest hct ih h
    rw [sub4_cons]
    simp only [hct]
    rw [noAdjSpace, List.chain'_cons']
    obtain ⟨w, r2, hsplit, hws2, hrest, -⟩ := colonTail_some_inv hct
    have hr2chain : noAdjSpace r2 := by
      have h2 : noAdjSpace (':' :: r2) := by
        rw [hsplit] at h
        exact chain'_of_append_right h
      exact noAdjSpace_tail h2
    have hrestc : noAdjSpace rest := by
      rw [hrest]
      exact noAdjSpace_dropWhile hr2chain
    refine ⟨?_, ih hrestc⟩
    intro x _
    rintro ⟨hcw, -⟩
    exact absurd hcw (by decide)
  · intro c cs hct ih h
    rw [sub4_cons]
    simp only [hct]
    rw [noAdjSpace, List.chain'_cons']
    refine ⟨?_, ih (noAdjSpace_tail h)⟩
    intro x hx
    rintro ⟨hcw, hxw⟩
    rcases sub4_head_shape cs with hs | hs
    · rw [hs] at hx
      simp only [Option.mem_def, Option.some.injEq] at hx
      subst hx
      exact absurd hxw (by decide)
    · rw [hs] at hx
      cases hcs : cs with
      | nil => rw [hcs] at hx; simp at hx
      | cons e cs' =>
        rw [hcs] at hx
        simp only [List.head?_cons, Option.mem_def, Option.some.injEq] at hx
        subst hx
        have hlink := (List.chain'_cons'.mp (hcs ▸ h)).1 e (by simp)
        exact hlink ⟨hcw, hxw⟩

theorem sub4_spacesBlank {l : List Char} (h : spacesBlank l) : spacesBlank (sub4 l) := by
  intro c hc hcw
  rcases sub4_chars l c hc with h1 | h1
  · subst h1
    exact absurd hcw (by decide)
  · exact h c h1 hcw

theorem psaMatch_some_inv {l ds rest : List Char} (h : psaMatch l = some (ds, rest)) :
    ∃ r, l = 'P' :: 's' :: 'a' :: r ∧
      ds = (r.dropWhile pySpace).takeWhile Char.isDigit ∧ ds ≠ [] ∧
      rest = ((r.dropWhile pySpace).dropWhile Char.isDigit).dropWhile
        (fun x => x ≠ '\n') := by
  match l with
  | [] => simp [psaMatch] at h
  | [a] => simp [psaMatch] at h
  | [a, b] => simp [psaMatch] at h
  | a :: b :: c :: r =>
    simp only [psaMatch] at h
    by_cases hc : a = 'P' ∧ b = 's' ∧ c = 'a'
    · obtain ⟨h1, h2, h3⟩ := hc
      subst h1
      subst h2
      subst h3
      rw [if_pos ⟨rfl, rfl, rfl⟩] at h
      by_cases he : ((r.dropWhile pySpace).takeWhile Char.isDigit).isEmpty
      · rw [if_pos he] at h
        exact absurd h (by simp)
      · rw [if_neg he] at h
        injection h with h
        injection h with hds hrest
        refine ⟨r, rfl, hds.symm, ?_, hrest.symm⟩
        intro hnil
        rw [hds, hnil] at he
        exact he rfl
    · rw [if_neg hc] at h
      exact absurd h (by simp)

theorem sub6_chars : ∀ (l : List Char), ∀ c ∈ sub6 l,
    c = 'P' ∨ c = 's' ∨ c = 'a' ∨ c = ' ' ∨ c ∈ l := by
  refine sub6_ind _ ?_ ?_ ?_
  · intro c hc
    rw [sub6_nil] at hc
    simp at hc
  · intro c cs ds rest hps ih x hx
    rw [sub6_cons] at hx
    simp only [hps] at hx
    obtain ⟨r, hl, hds, -, hrest⟩ := psaMatch_some_inv hps
    have hrl : ∀ y, y ∈ r → y ∈ c :: cs := by
      intro y hy
      rw [hl]
      exact List.mem_cons_of_mem _ (List.mem_cons_of_mem _ (List.mem_cons_of_mem _ hy))
    rcases List.mem_cons.mp hx with h1 | hx
    · exact Or.inl h1
    rcases List.mem_cons.mp hx with h1 | hx
    · exact Or.inr (Or.inl h1)
    rcases List.mem_cons.mp hx with h1 | hx
    · exact Or.inr (Or.inr (Or.inl h1))
    rcases List.mem_cons.mp hx with h1 | hx
    · exact Or.inr (Or.inr (Or.inr (Or.inl h1)))
    rcases List.mem_append.mp hx with h1 | h1
    · refine Or.inr (Or.inr (Or.inr (Or.inr ?_)))
      rw [hds] at h1
      exact hrl x ((List.dropWhile_sublist pySpace).subset
        ((List.takeWhile_sublist Char.isDigit).subset h1))
    · rcases ih x h1 with h2 | h2 | h2 | h2 | h2
      · exact Or.inl h2
      · exact Or.inr (Or.inl h2)
      · exact Or.inr (Or.inr (Or.inl h2))
      · exact Or.inr (Or.inr (Or.inr (Or.inl h2)))
      · refine Or.inr (Or.inr (Or.inr (Or.inr ?_)))
        rw [hrest] at h2
        exact hrl x ((List.dropWhile_sublist pySpace).subset
          ((List.dropWhile_sublist Char.isDigit).subset
            ((List.dropWhile_sublist (fun x => x ≠ '\n')).subset h2)))
  · intro c cs hps ih x hx
    rw [sub6_cons] at hx
    simp only [hps] at hx
    rcases List.mem_cons.mp hx with h1 | h1
    · exact Or.inr (Or.inr (Or.inr (Or.inr (h1 ▸ List.mem_cons_self _ _))))
    · rcases ih x h1 with h2 | h2 | h2 | h2 | h2
      · exact Or.inl h2
      · exact Or.inr (Or.inl h2)
      · exact Or.inr (Or.inr (Or.inl h2))
      · exact Or.inr (Or.inr (Or.inr (Or.inl h2)))
      · exact Or.inr (Or.inr (Or.inr (Or.inr (List.mem_cons_of_mem _ h2))))

/-! ### Generic span, head and chain helpers -/

theorem takeWhile_append_stop {q : Char → Bool} :
    ∀ (x y : List Char), x.dropWhile q ≠ [] →
      (x ++ y).takeWhile q = x.takeWhile q ∧
        (x ++ y).dropWhile q = x.dropWhile q ++ y := by
  intro x
  induction x with
  | nil => intro y h; exact absurd rfl h
  | cons c cs ih =>
    intro y h
    by_cases hc : q c
    · rw [List.dropWhile_cons_of_pos hc] at h
      obtain ⟨ht, hd⟩ := ih y h
      refine ⟨?_, ?_⟩
      · simp only [List.cons_append, List.takeWhile_cons_of_pos hc, ht]
      · simp only [List.cons_append, List.dropWhile_cons_of_pos hc, hd]
    · refine ⟨?_, ?_⟩
      · simp only [List.cons_append, List.takeWhile_cons_of_neg hc]
      · simp only [List.cons_append, List.dropWhile_cons_of_neg hc]

theorem takeWhile_append_all {q : Char → Bool} :
    ∀ (x y : List Char), (∀ c ∈ x, q c = true) →
      (x ++ y).takeWhile q = x ++ y.takeWhile q ∧
        (x ++ y).dropWhile q = y.dropWhile q := by
  intro x
  induction x with
  | nil => intro y _; exact ⟨rfl, rfl⟩
  | cons c cs ih =>
    intro y h
    have hc : q c = true := h c (List.mem_cons_self _ _)
    obtain ⟨ht, hd⟩ := ih y (fun d hdm => h d (List.mem_cons_of_mem _ hdm))
    refine ⟨?_, ?_⟩
    · simp only [List.cons_append, List.takeWhile_cons_of_pos hc, ht]
    · simp only [List.cons_append, List.dropWhile_cons_of_pos hc, hd]

theorem takeWhile_all {q : Char → Bool} {l : List Char}
    (h : ∀ c ∈ l, q c = true) : l.takeWhile q = l := by
  have h2 := (takeWhile_append_all l [] h).1
  simpa using h2

theorem head?_append_left {x : List Char} (y : List Char) (h : x ≠ []) :
    (x ++ y).head? = x.head? := by
  cases x with
  | nil => exact absurd rfl h
  | cons c cs => rfl

theorem chain'_of_all_left {R : Char → Char → Prop} :
    ∀ {l : List Char}, (∀ a ∈ l, ∀ b, R a b) → List.Chain' R l := by
  intro l
  induction l with
  | nil => intro _; exact List.chain'_nil
  | cons c cs ih =>
    intro h
    rw [List.chain'_cons']
    exact ⟨fun y _ => h c (List.mem_cons_self _ _) y,
      ih (fun a ha b => h a (List.mem_cons_of_mem _ ha) b)⟩

theorem take_all_of_le {l : List Char} : ∀ {n : Nat}, l.length ≤ n → l.take n = l := by
  induction l with
  | nil => intro n _; simp
  | cons c cs ih =>
    intro n hn
    cases n with
    | zero => simp at hn
    | succ n =>
      have hn2 : cs.length ≤ n := by
        simp only [List.length_cons] at hn
        omega
      rw [List.take_succ_cons, ih hn2]

theorem alpha_not_space {c : Char} (h : c.isAlpha = true) : pySpace c = false := by
  cases hp : pySpace c
  · rfl
  · exact absurd h (by simp [pySpace_not_alpha hp])

theorem ws_ne_P {c : Char} (h : pySpace c = true) : c ≠ 'P' := by
  intro he
  rw [he] at h
  exact absurd h (by decide)

theorem digit_ne_colon {c : Char} (h : c.isDigit = true) : c ≠ ':' := by
  intro he
  rw [he] at h
  exact absurd h (by decide)

theorem validateMatch_parts {l : List Char} (h : validateMatch l = true) :
    l.takeWhile isAlnumA ≠ [] ∧ (l.dropWhile isAlnumA).takeWhile pySpace ≠ [] ∧
      ∃ d y, (l.dropWhile isAlnumA).dropWhile pySpace = d :: y ∧ d.isDigit = true := by
  simp only [validateMatch, Bool.and_eq_true, Bool.not_eq_true',
    List.isEmpty_eq_false] at h
  obtain ⟨⟨hR, hW⟩, hd⟩ := h
  cases hr2 : (l.dropWhile isAlnumA).dropWhile pySpace with
  | nil => rw [hr2] at hd; simp at hd
  | cons d y =>
    rw [hr2] at hd
    exact ⟨hR, hW, d, y, rfl, hd⟩

theorem validateMatch_of_parts {l : List Char} (h1 : l.takeWhile isAlnumA ≠ [])
    (h2 : (l.dropWhile isAlnumA).takeWhile pySpace ≠ []) {d : Char} {y : List Char}
    (h3 : (l.dropWhile isAlnumA).dropWhile pySpace = d :: y)
    (hd : d.isDigit = true) : validateMatch l = true := by
  simp only [validateMatch, Bool.and_eq_true, Bool.not_eq_true', List.isEmpty_eq_false]
  rw [h3]
  exact ⟨⟨h1, h2⟩, hd⟩

theorem head_nonws_of_validate {l : List Char} (h : validateMatch l = true) :
    ∀ d, l.head? = some d → pySpace d = false := by
  intro d hd
  obtain ⟨h1, -, -⟩ := validateMatch_parts h
  cases l with
  | nil => simp at hd
  | cons c cs =>
    simp only [List.head?_cons, Option.some.injEq] at hd
    subst hd
    by_cases hc : isAlnumA c
    · exact alnum_not_space hc
    · rw [List.takeWhile_cons_of_neg hc] at h1
      exact absurd rfl h1

/-! ### The last character of each pipeline stage is not whitespace -/

theorem lastNonWs_pyStrip (l : List Char) : lastNonWs (pyStrip l) := by
  intro d hd
  unfold pyStrip at hd
  rw [List.getLast?_reverse] at hd
  cases hY : ((l.dropWhile pySpace).reverse.dropWhile pySpace) with
  | nil => rw [hY] at hd; simp at hd
  | cons e E =>
    rw [hY] at hd
    simp only [List.head?_cons, Option.some.injEq] at hd
    rw [← hd]
    exact dropWhile_head_false _ hY

theorem lastNonWs_sub1 {l : List Char} (h : lastNonWs l) : lastNonWs (sub1 l) := by
  rcases sub1_eq l with he | ⟨ds, w, a, rest, hsplit, -, -, -, -, -, he⟩
  · rw [he]; exact h
  · rw [he]
    intro d hd
    apply h d
    rw [hsplit, getLast?_append_right (by simp), getLast?_append_right (by simp)]
    rw [getLast?_append_right (by simp)] at hd
    exact hd

theorem lastNonWs_sub2 {l : List Char} (h : lastNonWs l) : lastNonWs (sub2 l) := by
  unfold sub2
  by_cases hr : (l.takeWhile isAlnumA).isEmpty
  · rw [if_pos hr]; exact h
  · rw [if_neg hr]
    cases hdw : l.dropWhile isAlnumA with
    | nil =>
      intro d hd
      simp only [hdw, List.append_nil] at hd
      have hmem : d ∈ (l.takeWhile isAlnumA).take 3 := List.mem_of_mem_getLast? hd
      have hal : isAlnumA d = true :=
        List.mem_takeWhile_imp (List.mem_of_mem_take hmem)
      exact alnum_not_space hal
    | cons e E =>
      intro d hd
      rw [getLast?_append_right (by simp)] at hd
      apply h d
      rw [← List.takeWhile_append_dropWhile isAlnumA l, hdw,
        getLast?_append_right (by simp)]
      exact hd

theorem lastNonWs_sub3 : ∀ (l : List Char), lastNonWs l → lastNonWs (sub3 l) := by
  refine sub3_ind (fun l => lastNonWs l → lastNonWs (sub3 l)) ?_ ?_ ?_
  · intro h
    rw [sub3_nil]
    exact h
  · intro c cs hsp ih h
    rw [sub3_cons, if_pos hsp]
    cases hdw : cs.dropWhile pySpace with
    | nil =>
      exfalso
      have hall : ∀ x ∈ c :: cs, pySpace x = true := by
        intro x hx
        rcases List.mem_cons.mp hx with h1 | h1
        · rw [h1]; exact hsp
        · exact List.dropWhile_eq_nil_iff.mp hdw x h1
      cases hg : (c :: cs).getLast? with
      | none => exact absurd (List.getLast?_eq_none_iff.mp hg) (by simp)
      | some d =>
        have hdf : pySpace d = false := h d hg
        exact absurd (hall d (List.mem_of_mem_getLast? hg)) (by simp [hdf])
    | cons e E =>
      intro d hd
      rw [getLast?_cons_ne_nil (sub3_ne_nil e E)] at hd
      have hcs : lastNonWs cs := by
        intro x hx
        apply h x
        rw [getLast?_cons_ne_nil (by intro hnil; rw [hnil] at hdw; simp at hdw)]
        exact hx
      have hrest : lastNonWs (cs.dropWhile pySpace) := by
        rw [← List.takeWhile_append_dropWhile pySpace cs, hdw] at hcs
        rw [hdw]
        exact lastNonWs_of_append (by simp) hcs
      exact ih hrest d (by rw [hdw]; exact hd)
  · intro c cs hsp ih h
    rw [sub3_cons, if_neg (by simp [hsp])]
    cases cs with
    | nil =>
      intro d hd
      rw [sub3_nil] at hd
      simp only [List.getLast?_singleton, Option.some.injEq] at hd
      rw [← hd]
      exact hsp
    | cons e E =>
      intro d hd
      rw [getLast?_cons_ne_nil (sub3_ne_nil e E)] at hd
      have hcs : lastNonWs (e :: E) := by
        intro x hx
        apply h x
        rw [getLast?_cons_ne_nil (by simp)]
        exact hx
      exact ih hcs d hd

theorem lastNonWs_sub4 : ∀ (l : List Char), lastNonWs l → lastNonWs (sub4 l) := by
  refine sub4_ind (fun l => lastNonWs l → lastNonWs (sub4 l)) ?_ ?_ ?_
  · intro h
    rw [sub4_nil]
    exact h
  · intro c cs rest hct ih h
    rw [sub4_cons]
    simp only [hct]
    obtain ⟨w, r2, hsplit, -, hrest, -⟩ := colonTail_some_inv hct
    cases hrn : rest with
    | nil =>
      intro d hd
      simp only [hrn, sub4_nil, List.getLast?_singleton, Option.some.injEq] at hd
      rw [← hd]
      decide
    | cons e E =>
      intro d hd
      rw [getLast?_cons_ne_nil (sub4_ne_nil e E)] at hd
      have h2 : lastNonWs rest := by
        have hx : lastNonWs (':' :: r2) := by
          intro x hx2
          apply h x
          rw [hsplit, getLast?_append_right (by simp)]
          exact hx2
        have hr2cs : lastNonWs r2 := by
          intro x hx2
          apply hx x
          rw [getLast?_cons_ne_nil (by
            intro hnil
            rw [hrest, hnil] at hrn
            simp at hrn)]
          exact hx2
        rw [hrest]
        rw [← List.takeWhile_append_dropWhile pySpace r2] at hr2cs
        refine lastNonWs_of_append ?_ hr2cs
        rw [← hrest, hrn]
        simp
      exact ih h2 d (by rw [hrn]; exact hd)
  · intro c cs hct ih h
    rw [sub4_cons]
    simp only [hct]
    cases cs with
    | nil =>
      intro d hd
      simp only [sub4_nil, List.getLast?_singleton, Option.some.injEq] at hd
      rw [← hd]
      exact h c (by simp)
    | cons e E =>
      intro d hd
      rw [getLast?_cons_ne_nil (sub4_ne_nil e E)] at hd
      have hcs : lastNonWs (e :: E) := by
        intro x hx
        apply h x
        rw [getLast?_cons_ne_nil (by simp)]
        exact hx
      exact ih hcs d hd

theorem lastNonWs_normalizePre (s : List Char) : lastNonWs (normalizePre s) :=
  lastNonWs_sub4 _ (lastNonWs_sub3 _ (lastNonWs_sub2 (lastNonWs_sub1
    (lastNonWs_pyStrip (pyTitle s)))))

/-! ### The leading alphanumeric run after `sub2` has at most 3 characters,
and `sub3`/`sub4` do not change it -/

theorem sub3_append_nonws :
    ∀ (x : List Char), (∀ c ∈ x, pySpace c = false) →
      ∀ y, sub3 (x ++ y) = x ++ sub3 y := by
  intro x
  induction x with
  | nil => intro _ y; rfl
  | cons c cs ih =>
    intro h y
    have hc : pySpace c = false := h c (List.mem_cons_self _ _)
    rw [List.cons_append, sub3_cons, if_neg (by simp [hc]),
      ih (fun d hd => h d (List.mem_cons_of_mem _ hd)) y, List.cons_append]

theorem sub4_append_alnum :
    ∀ (x : List Char), (∀ c ∈ x, isAlnumA c = true) →
      ∀ y, sub4 (x ++ y) = x ++ sub4 y := by
  intro x
  induction x with
  | nil => intro _ y; rfl
  | cons c cs ih =>
    intro h y
    have hc : isAlnumA c = true := h c (List.mem_cons_self _ _)
    have hcw : pySpace c = false := alnum_not_space hc
    have hcc : c ≠ ':' := by
      intro he
      rw [he] at hc
      exact absurd hc (by decide)
    have hct : colonTail (c :: (cs ++ y)) = none := colonTail_cons_plain hcw hcc _
    rw [List.cons_append, sub4_cons]
    simp only [hct]
    rw [ih (fun d hd => h d (List.mem_cons_of_mem _ hd)) y, List.cons_append]

theorem leadRun_sub2_le (l : List Char) :
    ((sub2 l).takeWhile isAlnumA).length ≤ 3 := by
  unfold sub2
  by_cases hr : (l.takeWhile isAlnumA).isEmpty
  · rw [if_pos hr, List.isEmpty_iff.mp hr]
    simp
  · rw [if_neg hr]
    have h1 : ∀ c ∈ (l.takeWhile isAlnumA).take 3, isAlnumA c = true :=
      fun c hc => List.mem_takeWhile_imp (List.mem_of_mem_take hc)
    have h2 : ∀ d, (l.dropWhile isAlnumA).head? = some d → isAlnumA d = false := by
      intro d hd
      cases he : l.dropWhile isAlnumA with
      | nil => rw [he] at hd; simp at hd
      | cons e E =>
        rw [he] at hd
        simp only [List.head?_cons, Option.some.injEq] at hd
        rw [← hd]
        exact dropWhile_head_false _ he
    rw [(span_eq_of isAlnumA _ _ h1 h2).1, List.length_take]
    exact Nat.min_le_left _ _

theorem leadRun_sub3_eq (l : List Char) :
    (sub3 l).takeWhile isAlnumA = l.takeWhile isAlnumA := by
  have hsplit := (List.takeWhile_append_dropWhile isAlnumA l).symm
  have hx : ∀ c ∈ l.takeWhile isAlnumA, pySpace c = false :=
    fun c hc => alnum_not_space (List.mem_takeWhile_imp hc)
  have h1 : sub3 l = l.takeWhile isAlnumA ++ sub3 (l.dropWhile isAlnumA) := by
    conv_lhs => rw [hsplit]
    exact sub3_append_nonws _ hx _
  rw [h1]
  have h2 : ∀ d, (sub3 (l.dropWhile isAlnumA)).head? = some d →
      isAlnumA d = false := by
    intro d hd
    cases he : l.dropWhile isAlnumA with
    | nil => rw [he, sub3_nil] at hd; simp at hd
    | cons e E =>
      rw [he] at hd
      obtain ⟨z, hz⟩ := sub3_head_shape e E
      rw [hz] at hd
      simp only [List.head?_cons, Option.some.injEq] at hd
      rw [← hd]
      by_cases hew : pySpace e
      · rw [if_pos hew]; decide
      · rw [if_neg hew]
        exact dropWhile_head_false _ he
  exact (span_eq_of isAlnumA _ _ (fun c hc => List.mem_takeWhile_imp hc) h2).1

theorem leadRun_sub4_eq (l : List Char) :
    (sub4 l).takeWhile isAlnumA = l.takeWhile isAlnumA := by
  have hsplit := (List.takeWhile_append_dropWhile isAlnumA l).symm
  have h1 : sub4 l = l.takeWhile isAlnumA ++ sub4 (l.dropWhile isAlnumA) := by
    conv_lhs => rw [hsplit]
    exact sub4_append_alnum _ (fun c hc => List.mem_takeWhile_imp hc) _
  rw [h1]
  have h2 : ∀ d, (sub4 (l.dropWhile isAlnumA)).head? = some d →
      isAlnumA d = false := by
    intro d hd
    rcases sub4_head_shape (l.dropWhile isAlnumA) with hs | hs
    · rw [hs] at hd
      simp only [Option.some.injEq] at hd
      rw [← hd]
      decide
    · rw [hs] at hd
      cases he : l.dropWhile isAlnumA with
      | nil => rw [he] at hd; simp at hd
      | cons e E =>
        rw [he] at hd
        simp only [List.head?_cons, Option.some.injEq] at hd
        rw [← hd]
        exact dropWhile_head_false _ he
  exact (span_eq_of isAlnumA _ _ (fun c hc => List.mem_takeWhile_imp hc) h2).1

theorem leadRun_normalizePre (s : List Char) :
    ((normalizePre s).takeWhile isAlnumA).length ≤ 3 := by
  unfold normalizePre
  rw [leadRun_sub4_eq, leadRun_sub3_eq]
  exact leadRun_sub2_le _

/-! ### Fixpoint lemmas: a normalized string passes each stage unchanged -/

theorem pyTitle_fix {l : List Char} (h : titledB false l = true) : pyTitle l = l :=
  (titledB_iff l false).mp h

theorem pyStrip_fix {l : List Char}
    (hh : ∀ d, l.head? = some d → pySpace d = false)
    (hl : lastNonWs l) : pyStrip l = l := by
  have h1 : l.dropWhile pySpace = l := by
    cases l with
    | nil => rfl
    | cons c cs => exact List.dropWhile_cons_of_neg (by simp [hh c rfl])
  have h2 : l.reverse.dropWhile pySpace = l.reverse := by
    cases hrev : l.reverse with
    | nil => rfl
    | cons d ds =>
      have hd : l.getLast? = some d := by
        rw [← List.head?_reverse, hrev]
        rfl
      exact List.dropWhile_cons_of_neg (by simp [hl d hd])
  unfold pyStrip
  rw [h1, h2, List.reverse_reverse]

theorem sub1_fix {l : List Char} (h : validateMatch l = true) : sub1 l = l := by
  rcases sub1_eq l with he | ⟨ds, w, a, rest, hsplit, hdsne, hdig, hwne, hws, ha, -⟩
  · exact he
  · exfalso
    have hds_al : ∀ c ∈ ds, isAlnumA c = true := fun c hc => digit_alnum (hdig c hc)
    have hwhead : ∀ e, (w ++ a :: rest).head? = some e → isAlnumA e = false := by
      intro e he2
      cases w with
      | nil => exact absurd rfl hwne
      | cons w0 w2 =>
        simp only [List.cons_append, List.head?_cons, Option.some.injEq] at he2
        rw [← he2]
        exact pySpace_not_alnum (hws w0 (List.mem_cons_self _ _))
    have hd1 : l.dropWhile isAlnumA = w ++ a :: rest := by
      rw [hsplit]
      exact (span_eq_of isAlnumA ds (w ++ a :: rest) hds_al hwhead).2
    have hahead : ∀ e, (a :: rest).head? = some e → pySpace e = false := by
      intro e he2
      simp only [List.head?_cons, Option.some.injEq] at he2
      rw [← he2]
      exact alpha_not_space ha
    have hd2 : (l.dropWhile isAlnumA).dropWhile pySpace = a :: rest := by
      rw [hd1]
      exact (span_eq_of pySpace w (a :: rest) hws hahead).2
    obtain ⟨-, -, d, y, hdy, hdd⟩ := validateMatch_parts h
    rw [hd2] at hdy
    injection hdy with h1 h2
    rw [← h1] at hdd
    exact absurd ha (by simp [digit_not_alpha hdd])

theorem sub2_fix {l : List Char} (h3 : (l.takeWhile isAlnumA).length ≤ 3) :
    sub2 l = l := by
  unfold sub2
  by_cases hr : (l.takeWhile isAlnumA).isEmpty
  · rw [if_pos hr]
  · rw [if_neg hr, take_all_of_le h3, List.takeWhile_append_dropWhile]

theorem sub3_fix : ∀ (l : List Char), spacesBlank l → noAdjSpace l → sub3 l = l := by
  refine sub3_ind (fun l => spacesBlank l → noAdjSpace l → sub3 l = l) ?_ ?_ ?_
  · intro _ _
    exact sub3_nil
  · intro c cs hsp ih hsb hna
    rw [sub3_cons, if_pos hsp]
    have hc : c = ' ' := hsb c (List.mem_cons_self _ _) hsp
    have hdw : cs.dropWhile pySpace = cs := by
      cases cs with
      | nil => rfl
      | cons e E =>
        have hr := (List.chain'_cons'.mp hna).1 e (by simp)
        have he : pySpace e = false := by
          by_cases hew : pySpace e
          · exact absurd ⟨hsp, hew⟩ hr
          · simpa using hew
        exact List.dropWhile_cons_of_neg (by simp [he])
    have hsb2 : spacesBlank cs := fun x hx hxw => hsb x (List.mem_cons_of_mem _ hx) hxw
    have hna2 : noAdjSpace cs := noAdjSpace_tail hna
    have hcs : sub3 cs = cs := by
      have h0 := ih (by rw [hdw]; exact hsb2) (by rw [hdw]; exact hna2)
      rwa [hdw] at h0
    rw [hdw, hcs, hc]
  · intro c cs hsp ih hsb hna
    rw [sub3_cons, if_neg (by simp [hsp])]
    rw [ih (fun x hx hxw => hsb x (List.mem_cons_of_mem _ hx) hxw) (noAdjSpace_tail hna)]

theorem sub4_fix : ∀ (l : List Char), noAdjSpace l → noColonSpace l → sub4 l = l := by
  refine sub4_ind (fun l => noAdjSpace l → noColonSpace l → sub4 l = l) ?_ ?_ ?_
  · intro _ _
    exact sub4_nil
  · intro c cs rest hct ih hna hnc
    rw [sub4_cons]
    simp only [hct]
    by_cases hcw : pySpace c
    · exfalso
      cases cs with
      | nil =>
        rw [colonTail_cons_ws hcw] at hct
        simp [colonTail] at hct
      | cons e E =>
        have he1 : pySpace e = false := by
          have hr := (List.chain'_cons'.mp hna).1 e (by simp)
          by_cases hew : pySpace e
          · exact absurd ⟨hcw, hew⟩ hr
          · simpa using hew
        have he2 : e ≠ ':' := by
          have hr := (List.chain'_cons'.mp hnc).1 e (by simp)
          intro heq
          exact hr.2 ⟨hcw, heq⟩
        rw [colonTail_cons_ws hcw, colonTail_cons_plain he1 he2] at hct
        exact absurd hct (by simp)
    · by_cases hcc : c = ':'
      · subst hcc
        rw [colonTail_colon] at hct
        have hdw : cs.dropWhile pySpace = cs := by
          cases cs with
          | nil => rfl
          | cons e E =>
            have hr := (List.chain'_cons'.mp hnc).1 e (by simp)
            have he : pySpace e = false := by
              by_cases hew : pySpace e
              · exact absurd ⟨rfl, hew⟩ hr.1
              · simpa using hew
            exact List.dropWhile_cons_of_neg (by simp [he])
        rw [hdw] at hct
        injection hct with h1
        have hcs : sub4 cs = cs := by
          have h2 := ih (by rw [← h1]; exact noAdjSpace_tail hna)
            (by rw [← h1]; exact (List.chain'_cons'.mp hnc).2)
          rw [← h1] at h2
          exact h2
        rw [← h1, hcs]
      · rw [colonTail_cons_plain (by simpa using hcw) hcc] at hct
        exact absurd hct (by simp)
  · intro c cs hct ih hna hnc
    rw [sub4_cons]
    simp only [hct]
    rw [ih (noAdjSpace_tail hna) (List.chain'_cons'.mp hnc).2]

/-- Every field of the pipeline output shape: running the pre-check pipeline
on such a string changes nothing. -/
theorem normalizePre_fix {t : List Char} (ht : titledB false t = true)
    (hsb : spacesBlank t) (hna : noAdjSpace t) (hnc : noColonSpace t)
    (hlast : lastNonWs t) (hlr : (t.takeWhile isAlnumA).length ≤ 3)
    (hval : validateMatch t = true) : normalizePre t = t := by
  unfold normalizePre
  rw [pyTitle_fix ht, pyStrip_fix (head_nonws_of_validate hval) hlast,
    sub1_fix hval, sub2_fix hlr, sub3_fix t hsb hna, sub4_fix t hna hnc]

/-! ### `sub6` idempotence: the Psalm substitution fixes its own output -/

theorem psaMatch_none_of_head {c : Char} (h : c ≠ 'P') (cs : List Char) :
    psaMatch (c :: cs) = none := by
  cases cs with
  | nil => rfl
  | cons b cs2 =>
    cases cs2 with
    | nil => rfl
    | cons c2 r =>
      simp only [psaMatch]
      rw [if_neg (by rintro ⟨hc, -⟩; exact h hc)]

theorem sub6_cons_shape (x : Char) (y : List Char) :
    ∃ z, sub6 (x :: y) = x :: z := by
  cases hps : psaMatch (x :: y) with
  | some p =>
    obtain ⟨ds, rest⟩ := p
    obtain ⟨r, hl, -, -, -⟩ := psaMatch_some_inv hps
    injection hl with h1 h2
    refine ⟨'s' :: 'a' :: ' ' :: (ds ++ sub6 rest), ?_⟩
    rw [sub6_cons]
    simp only [hps]
    rw [h1]
  | none =>
    refine ⟨sub6 y, ?_⟩
    rw [sub6_cons]
    simp only [hps]

theorem sub6_append_not_P :
    ∀ (u : List Char), (∀ x ∈ u, x ≠ 'P') → ∀ v, sub6 (u ++ v) = u ++ sub6 v := by
  intro u
  induction u with
  | nil => intro _ v; rfl
  | cons c cs ih =>
    intro h v
    have hc : c ≠ 'P' := h c (List.mem_cons_self _ _)
    have hps : psaMatch (c :: (cs ++ v)) = none := psaMatch_none_of_head hc _
    rw [List.cons_append, sub6_cons]
    simp only [hps]
    rw [ih (fun x hx => h x (List.mem_cons_of_mem _ hx)) v, List.cons_append]

theorem sub6_all_ws {r : List Char} (h : ∀ x ∈ r, pySpace x = true) : sub6 r = r := by
  have h2 := sub6_append_not_P r (fun x hx => ws_ne_P (h x hx)) []
  simpa [sub6_nil] using h2

theorem digits_empty_sub6 {r : List Char}
    (h : ((r.dropWhile pySpace).takeWhile Char.isDigit).isEmpty = true) :
    (((sub6 r).dropWhile pySpace).takeWhile Char.isDigit).isEmpty = true := by
  cases hr : r.dropWhile pySpace with
  | nil =>
    have hall : ∀ x ∈ r, pySpace x = true := List.dropWhile_eq_nil_iff.mp hr
    rw [sub6_all_ws hall, hr]
    rfl
  | cons e r2 =>
    have hew : pySpace e = false := dropWhile_head_false _ hr
    have hed : e.isDigit = false := by
      rw [hr] at h
      by_cases hd : e.isDigit
      · rw [List.takeWhile_cons_of_pos hd] at h
        simp at h
      · simpa using hd
    have hsplit : r = r.takeWhile pySpace ++ e :: r2 := by
      rw [← hr, List.takeWhile_append_dropWhile]
    have hws : ∀ x ∈ r.takeWhile pySpace, x ≠ 'P' :=
      fun x hx => ws_ne_P (List.mem_takeWhile_imp hx)
    have h6 : sub6 r = r.takeWhile pySpace ++ sub6 (e :: r2) := by
      conv_lhs => rw [hsplit]
      exact sub6_append_not_P _ hws _
    obtain ⟨z, hz⟩ := sub6_cons_shape e r2
    rw [h6, hz]
    rw [(takeWhile_append_all (r.takeWhile pySpace) (e :: z)
      (fun x hx => List.mem_takeWhile_imp hx)).2]
    rw [List.dropWhile_cons_of_neg (by simp [hew]),
      List.takeWhile_cons_of_neg (by simp [hed])]
    rfl

theorem psaMatch_none_transfer {c : Char} {cs : List Char}
    (h : psaMatch (c :: cs) = none) : psaMatch (c :: sub6 cs) = none := by
  by_cases hc : c = 'P'
  · subst hc
    cases hps : psaMatch cs with
    | some p =>
      obtain ⟨ds, rest⟩ := p
      obtain ⟨r, hl, -, -, -⟩ := psaMatch_some_inv hps
      have hps2 : psaMatch ('P' :: 's' :: 'a' :: r) = some (ds, rest) := by
        rw [← hl]
        exact hps
      have h6 : sub6 cs = 'P' :: 's' :: 'a' :: ' ' :: (ds ++ sub6 rest) := by
        rw [hl, sub6_cons]
        simp only [hps2]
      rw [h6]
      rfl
    | none =>
      cases cs with
      | nil => rfl
      | cons b cs2 =>
        have h6 : sub6 (b :: cs2) = b :: sub6 cs2 := by
          rw [sub6_cons]
          simp only [hps]
        rw [h6]
        cases cs2 with
        | nil => rfl
        | cons c2 r =>
          obtain ⟨z, hz⟩ := sub6_cons_shape c2 r
          rw [hz]
          by_cases hsa : b = 's' ∧ c2 = 'a'
          · obtain ⟨hb, hc2⟩ := hsa
            subst hb
            subst hc2
            have hempty :
                ((r.dropWhile pySpace).takeWhile Char.isDigit).isEmpty = true := by
              by_cases he : ((r.dropWhile pySpace).takeWhile Char.isDigit).isEmpty
              · exact he
              · exfalso
                simp only [psaMatch] at h
                rw [if_pos (by simp : True ∧ True ∧ True), if_neg he] at h
                exact absurd h (by simp)
            have hzr : z = sub6 r := by
              have h7 : sub6 ('a' :: r) = 'a' :: sub6 r := by
                rw [sub6_cons]
                simp only [psaMatch_none_of_head (show ('a' : Char) ≠ 'P' by decide) r]
              rw [h7] at hz
              injection hz with h8 h9
              exact h9.symm
            rw [hzr]
            simp only [psaMatch]
            rw [if_pos (by simp : True ∧ True ∧ True)]
            rw [if_pos (digits_empty_sub6 hempty)]
          · simp only [psaMatch]
            rw [if_neg (by
              rintro ⟨-, hb, hc2⟩
              exact hsa ⟨hb, hc2⟩)]
  · exact psaMatch_none_of_head hc _

theorem psaMatch_psa_digits {ds : List Char} (hne : ds ≠ [])
    (hdig : ∀ c ∈ ds, c.isDigit = true) :
    psaMatch ('P' :: 's' :: 'a' :: ' ' :: ds) = some (ds, []) := by
  have h1 : (' ' :: ds).dropWhile pySpace = ds := by
    rw [List.dropWhile_cons_of_pos (by decide)]
    cases ds with
    | nil => exact absurd rfl hne
    | cons d0 ds2 =>
      exact List.dropWhile_cons_of_neg
        (by simp [digit_not_space (hdig d0 (List.mem_cons_self _ _))])
  have h2 : ds.takeWhile Char.isDigit = ds := takeWhile_all hdig
  have h3 : ds.dropWhile Char.isDigit = [] := List.dropWhile_eq_nil_iff.mpr hdig
  simp only [psaMatch]
  rw [if_pos (by simp : True ∧ True ∧ True), h1, h2, h3]
  rw [if_neg (by simp only [List.isEmpty_iff]; exact hne)]
  rfl

/-- `sub6` is idempotent on newline-free strings. -/
theorem sub6_idem : ∀ (l : List Char), '\n' ∉ l → sub6 (sub6 l) = sub6 l := by
  refine sub6_ind (fun l => '\n' ∉ l → sub6 (sub6 l) = sub6 l) ?_ ?_ ?_
  · intro _
    rfl
  · intro c cs ds rest hps ih hnl
    obtain ⟨r, hl, hds, hdsne, hrest⟩ := psaMatch_some_inv hps
    have hdig : ∀ x ∈ ds, x.isDigit = true := by
      intro x hx
      rw [hds] at hx
      exact List.mem_takeWhile_imp hx
    have hrz : rest = [] := by
      rw [hrest]
      apply all_not_dropWhile_ne
      intro x hx hxe
      apply hnl
      rw [hl, ← hxe]
      refine List.mem_cons_of_mem _ (List.mem_cons_of_mem _ (List.mem_cons_of_mem _ ?_))
      exact (List.dropWhile_sublist pySpace).subset
        ((List.dropWhile_sublist Char.isDigit).subset hx)
    have h6 : sub6 (c :: cs) = 'P' :: 's' :: 'a' :: ' ' :: ds := by
      rw [sub6_cons]
      simp only [hps]
      rw [hrz, sub6_nil, List.append_nil]
    rw [h6, sub6_cons]
    simp only [psaMatch_psa_digits hdsne hdig]
    rw [sub6_nil, List.append_nil]
  · intro c cs hps ih hnl
    have h6 : sub6 (c :: cs) = c :: sub6 cs := by
      rw [sub6_cons]
      simp only [hps]
    rw [h6, sub6_cons]
    simp only [psaMatch_none_transfer hps]
    rw [ih (fun hmem => hnl (List.mem_cons_of_mem _ hmem))]

/-! ### Shape of `sub6`'s output and transfer of the pipeline invariants -/

/-- On a newline-free string `sub6` either changes nothing, or the string
splits at the first `Psa` match and everything after the digit group is
discarded. -/
theorem sub6_shape : ∀ (l : List Char), '\n' ∉ l →
    sub6 l = l ∨ ∃ pre w ds tail,
      l = pre ++ 'P' :: 's' :: 'a' :: (w ++ ds ++ tail) ∧
      (∀ c ∈ w, pySpace c = true) ∧ ds ≠ [] ∧ (∀ c ∈ ds, c.isDigit = true) ∧
      sub6 l = pre ++ 'P' :: 's' :: 'a' :: ' ' :: ds := by
  refine sub6_ind (fun l => '\n' ∉ l → sub6 l = l ∨ ∃ pre w ds tail,
      l = pre ++ 'P' :: 's' :: 'a' :: (w ++ ds ++ tail) ∧
      (∀ c ∈ w, pySpace c = true) ∧ ds ≠ [] ∧ (∀ c ∈ ds, c.isDigit = true) ∧
      sub6 l = pre ++ 'P' :: 's' :: 'a' :: ' ' :: ds) ?_ ?_ ?_
  · intro _
    left
    rfl
  · intro c cs ds rest hps ih hnl
    right
    obtain ⟨r, hl, hds, hdsne, hrest⟩ := psaMatch_some_inv hps
    have hdig : ∀ x ∈ ds, x.isDigit = true := by
      intro x hx
      rw [hds] at hx
      exact List.mem_takeWhile_imp hx
    have hrz : rest = [] := by
      rw [hrest]
      apply all_not_dropWhile_ne
      intro x hx hxe
      apply hnl
      rw [hl, ← hxe]
      refine List.mem_cons_of_mem _ (List.mem_cons_of_mem _ (List.mem_cons_of_mem _ ?_))
      exact (List.dropWhile_sublist pySpace).subset
        ((List.dropWhile_sublist Char.isDigit).subset hx)
    have hr : r.takeWhile pySpace ++ ds ++
        (r.dropWhile pySpace).dropWhile Char.isDigit = r := by
      rw [List.append_assoc, hds, List.takeWhile_append_dropWhile,
        List.takeWhile_append_dropWhile]
    refine ⟨[], r.takeWhile pySpace, ds,
      (r.dropWhile pySpace).dropWhile Char.isDigit, ?_,
      fun x hx => List.mem_takeWhile_imp hx, hdsne, hdig, ?_⟩
    · rw [hl, List.nil_append]
      conv_lhs => rw [← hr]
    · rw [sub6_cons]
      simp only [hps]
      rw [hrz, sub6_nil, List.append_nil, List.nil_append]
  · intro c cs hps ih hnl
    have h6 : sub6 (c :: cs) = c :: sub6 cs := by
      rw [sub6_cons]
      simp only [hps]
    rcases ih (fun hm => hnl (List.mem_cons_of_mem _ hm)) with
      he | ⟨pre, w, ds, tail, hsp, hw, hdsne, hdig, hs6⟩
    · left
      rw [h6, he]
    · right
      refine ⟨c :: pre, w, ds, tail, ?_, hw, hdsne, hdig, ?_⟩
      · rw [List.cons_append, ← hsp]
      · rw [h6, hs6, List.cons_append]

theorem titled_shape {pre w ds tail : List Char}
    (h : titledB false (pre ++ 'P' :: 's' :: 'a' :: (w ++ ds ++ tail)) = true)
    (hdig : ∀ c ∈ ds, c.isDigit = true) :
    titledB false (pre ++ 'P' :: 's' :: 'a' :: ' ' :: ds) = true := by
  rw [titledB_append] at h
  obtain ⟨hpre, h2⟩ := band_iff.mp h
  rw [titledB_append]
  refine band_iff.mpr ⟨hpre, ?_⟩
  cases hf : flagEnd false pre with
  | true =>
    rw [hf] at h2
    exfalso
    obtain ⟨hhead, -⟩ := titledB_cons_iff.mp h2
    exact absurd hhead (by decide)
  | false =>
    refine titledB_cons_iff.mpr ⟨by decide, ?_⟩
    refine titledB_cons_iff.mpr ⟨by decide, ?_⟩
    refine titledB_cons_iff.mpr ⟨by decide, ?_⟩
    refine titledB_cons_iff.mpr ⟨by decide, ?_⟩
    exact titledB_of_nonalpha (fun c hc => digit_not_alpha (hdig c hc)) _

theorem spacesBlank_shape {pre w ds tail : List Char}
    (hsb : spacesBlank (pre ++ 'P' :: 's' :: 'a' :: (w ++ ds ++ tail)))
    (hdig : ∀ c ∈ ds, c.isDigit = true) :
    spacesBlank (pre ++ 'P' :: 's' :: 'a' :: ' ' :: ds) := by
  intro c hc hcw
  rcases List.mem_append.mp hc with h1 | h1
  · exact hsb c (List.mem_append.mpr (Or.inl h1)) hcw
  · rcases List.mem_cons.mp h1 with h2 | h1
    · rw [h2] at hcw; exact absurd hcw (by decide)
    rcases List.mem_cons.mp h1 with h2 | h1
    · rw [h2] at hcw; exact absurd hcw (by decide)
    rcases List.mem_cons.mp h1 with h2 | h1
    · rw [h2] at hcw; exact absurd hcw (by decide)
    rcases List.mem_cons.mp h1 with h2 | h1
    · exact h2
    · exact absurd hcw (by simp [digit_not_space (hdig c h1)])

theorem noAdjSpace_shape {pre w ds tail : List Char}
    (h : noAdjSpace (pre ++ 'P' :: 's' :: 'a' :: (w ++ ds ++ tail)))
    (hdig : ∀ c ∈ ds, c.isDigit = true) :
    noAdjSpace (pre ++ 'P' :: 's' :: 'a' :: ' ' :: ds) := by
  rw [noAdjSpace, List.chain'_append] at h ⊢
  obtain ⟨hpre, -, hlink⟩ := h
  refine ⟨hpre, ?_, ?_⟩
  · rw [List.chain'_cons]
    refine ⟨by decide, ?_⟩
    rw [List.chain'_cons]
    refine ⟨by decide, ?_⟩
    rw [List.chain'_cons]
    refine ⟨by decide, ?_⟩
    rw [List.chain'_cons']
    refine ⟨?_, chain'_of_all_left (fun a ha b => ?_)⟩
    · intro y hy
      have hyds : y ∈ ds := List.mem_of_mem_head? hy
      rintro ⟨-, hyw⟩
      exact absurd hyw (by simp [digit_not_space (hdig y hyds)])
    · rintro ⟨haw, -⟩
      exact absurd haw (by simp [digit_not_space (hdig a ha)])
  · intro x hx y hy
    have hy2 : y = 'P' := by
      simp only [List.head?_cons, Option.mem_def, Option.some.injEq] at hy
      exact hy.symm
    rw [hy2]
    exact hlink x hx 'P' (by simp)

theorem noColonSpace_shape {pre w ds tail : List Char}
    (h : noColonSpace (pre ++ 'P' :: 's' :: 'a' :: (w ++ ds ++ tail)))
    (hdig : ∀ c ∈ ds, c.isDigit = true) :
    noColonSpace (pre ++ 'P' :: 's' :: 'a' :: ' ' :: ds) := by
  rw [noColonSpace, List.chain'_append] at h ⊢
  obtain ⟨hpre, -, hlink⟩ := h
  refine ⟨hpre, ?_, ?_⟩
  · rw [List.chain'_cons]
    refine ⟨by decide, ?_⟩
    rw [List.chain'_cons]
    refine ⟨by decide, ?_⟩
    rw [List.chain'_cons]
    refine ⟨by decide, ?_⟩
    rw [List.chain'_cons']
    refine ⟨?_, chain'_of_all_left (fun a ha b => ?_)⟩
    · intro y hy
      have hyds : y ∈ ds := List.mem_of_mem_head? hy
      refine ⟨?_, ?_⟩
      · rintro ⟨h1, -⟩
        exact absurd h1 (by decide)
      · rintro ⟨-, h2⟩
        exact digit_ne_colon (hdig y hyds) h2
    · refine ⟨?_, ?_⟩
      · rintro ⟨h1, -⟩
        exact digit_ne_colon (hdig a ha) h1
      · rintro ⟨h2, -⟩
        exact absurd h2 (by simp [digit_not_space (hdig a ha)])
  · intro x hx y hy
    have hy2 : y = 'P' := by
      simp only [List.head?_cons, Option.mem_def, Option.some.injEq] at hy
      exact hy.symm
    rw [hy2]
    exact hlink x hx 'P' (by simp)

theorem lastNonWs_shape {pre ds : List Char} (hdsne : ds ≠ [])
    (hdig : ∀ c ∈ ds, c.isDigit = true) :
    lastNonWs (pre ++ 'P' :: 's' :: 'a' :: ' ' :: ds) := by
  intro d hd
  rw [getLast?_append_right (by simp)] at hd
  rw [show ('P' :: 's' :: 'a' :: ' ' :: ds : List Char) = ['P', 's', 'a', ' '] ++ ds
    from rfl, getLast?_append_right hdsne] at hd
  exact digit_not_space (hdig d (List.mem_of_mem_getLast? hd))

theorem validate_shape {pre w ds tail : List Char}
    (hw : ∀ c ∈ w, pySpace c = true) (hdsne : ds ≠ [])
    (hdig : ∀ c ∈ ds, c.isDigit = true)
    (hval : validateMatch (pre ++ 'P' :: 's' :: 'a' :: (w ++ ds ++ tail)) = true)
    (hlr : ((pre ++ 'P' :: 's' :: 'a' ::
      (w ++ ds ++ tail)).takeWhile isAlnumA).length ≤ 3) :
    validateMatch (pre ++ 'P' :: 's' :: 'a' :: ' ' :: ds) = true ∧
      ((pre ++ 'P' :: 's' :: 'a' :: ' ' :: ds).takeWhile isAlnumA).length ≤ 3 := by
  by_cases hpre : pre.dropWhile isAlnumA = []
  · have hpal : ∀ c ∈ pre, isAlnumA c = true := List.dropWhile_eq_nil_iff.mp hpre
    have htp := (takeWhile_append_all pre
      ('P' :: 's' :: 'a' :: (w ++ ds ++ tail)) hpal).1
    have hXtake : ('P' :: 's' :: 'a' :: (w ++ ds ++ tail)).takeWhile isAlnumA
        = 'P' :: 's' :: 'a' :: ((w ++ ds ++ tail).takeWhile isAlnumA) := by
      rw [List.takeWhile_cons_of_pos (by decide),
        List.takeWhile_cons_of_pos (by decide),
        List.takeWhile_cons_of_pos (by decide)]
    rw [htp, hXtake, List.length_append] at hlr
    simp only [List.length_cons] at hlr
    have hpre0 : pre = [] := by
      have hl0 : pre.length = 0 := by omega
      exact List.eq_nil_of_length_eq_zero hl0
    subst hpre0
    simp only [List.nil_append]
    have hq1 : ('P' :: 's' :: 'a' :: ' ' :: ds).takeWhile isAlnumA
        = ['P', 's', 'a'] := by
      rw [List.takeWhile_cons_of_pos (by decide),
        List.takeWhile_cons_of_pos (by decide),
        List.takeWhile_cons_of_pos (by decide),
        List.takeWhile_cons_of_neg (by decide)]
    have hq2 : ('P' :: 's' :: 'a' :: ' ' :: ds).dropWhile isAlnumA = ' ' :: ds := by
      rw [List.dropWhile_cons_of_pos (by decide),
        List.dropWhile_cons_of_pos (by decide),
        List.dropWhile_cons_of_pos (by decide),
        List.dropWhile_cons_of_neg (by decide)]
    cases hds : ds with
    | nil => exact absurd hds hdsne
    | cons d0 ds2 =>
      have hd0 : d0.isDigit = true := hdig d0 (by rw [hds]; exact List.mem_cons_self _ _)
      rw [← hds]
      constructor
      · refine @validateMatch_of_parts _ (by rw [hq1]; simp) ?_ d0 ds2 ?_ hd0
        · rw [hq2, List.takeWhile_cons_of_pos (by decide)]
          simp
        · rw [hq2, List.dropWhile_cons_of_pos (by decide), hds,
            List.dropWhile_cons_of_neg (by simp [digit_not_space hd0])]
      · rw [hq1]
        simp
  · have hstopP := takeWhile_append_stop pre
      ('P' :: 's' :: 'a' :: (w ++ ds ++ tail)) hpre
    have hstopQ := takeWhile_append_stop pre ('P' :: 's' :: 'a' :: ' ' :: ds) hpre
    have hlr2 : ((pre ++ 'P' :: 's' :: 'a' :: ' ' :: ds).takeWhile
        isAlnumA).length ≤ 3 := by
      rw [hstopQ.1]
      rw [hstopP.1] at hlr
      exact hlr
    refine ⟨?_, hlr2⟩
    obtain ⟨h1, h2, d, y, hdy, hd⟩ := validateMatch_parts hval
    have hq1 : (pre ++ 'P' :: 's' :: 'a' :: ' ' :: ds).takeWhile isAlnumA ≠ [] := by
      rw [hstopQ.1]
      rw [hstopP.1] at h1
      exact h1
    rw [hstopP.2] at h2 hdy
    by_cases hBws : (pre.dropWhile isAlnumA).dropWhile pySpace = []
    · exfalso
      have hBall : ∀ c ∈ pre.dropWhile isAlnumA, pySpace c = true :=
        List.dropWhile_eq_nil_iff.mp hBws
      rw [(takeWhile_append_all _ _ hBall).2] at hdy
      rw [List.dropWhile_cons_of_neg (by decide)] at hdy
      injection hdy with hd1 hd2
      rw [← hd1] at hd
      exact absurd hd (by decide)
    · have hsB := takeWhile_append_stop (pre.dropWhile isAlnumA)
        ('P' :: 's' :: 'a' :: (w ++ ds ++ tail)) hBws
      have hsBq := takeWhile_append_stop (pre.dropWhile isAlnumA)
        ('P' :: 's' :: 'a' :: ' ' :: ds) hBws
      rw [hsB.1] at h2
      rw [hsB.2] at hdy
      cases hBd : (pre.dropWhile isAlnumA).dropWhile pySpace with
      | nil => exact absurd hBd hBws
      | cons e E =>
        rw [hBd, List.cons_append] at hdy
        injection hdy with he1 he2
        have hq2 : ((pre ++ 'P' :: 's' :: 'a' :: ' ' :: ds).dropWhile
            isAlnumA).takeWhile pySpace ≠ [] := by
          rw [hstopQ.2, hsBq.1]
          exact h2
        have hq3 : ((pre ++ 'P' :: 's' :: 'a' :: ' ' :: ds).dropWhile
            isAlnumA).dropWhile pySpace
            = e :: (E ++ ('P' :: 's' :: 'a' :: ' ' :: ds)) := by
          rw [hstopQ.2, hsBq.2, hBd, List.cons_append]
        exact validateMatch_of_parts hq1 hq2 hq3 (by rw [he1]; exact hd)

/-- C3: the normalizer is idempotent on accepted inputs — whenever
`scripture_format_validator` succeeds on `s` with result `t`, running it
again on `t` succeeds and returns `t` unchanged
(`normalize(normalize(x)) = normalize(x)`, spec §4.1 step 7 / §8). -/
theorem normalize_idempotent (s t : List Char)
    (h : scripture_format_validator s = Except.ok t) :
    scripture_format_validator t = Except.ok t := by
  unfold scripture_format_validator at h
  by_cases hv : validateMatch (normalizePre s) = true
  · rw [if_pos hv] at h
    injection h with h
    have hnl : '\n' ∉ normalizePre s := normalizePre_no_newline s
    have htl : titledB false (normalizePre s) = true := titled_normalizePre s
    have hsb : spacesBlank (normalizePre s) := by
      unfold normalizePre
      exact sub4_spacesBlank (sub3_space_blank _)
    have hna : noAdjSpace (normalizePre s) := by
      unfold normalizePre
      exact sub4_noAdjSpace _ (sub3_noAdjSpace _)
    have hnc : noColonSpace (normalizePre s) := by
      unfold normalizePre
      exact sub4_noColonSpace _
    have hlast : lastNonWs (normalizePre s) := lastNonWs_normalizePre s
    have hlr := leadRun_normalizePre s
    have hsub6 : sub6 t = t := by
      rw [← h]
      exact sub6_idem (normalizePre s) hnl
    have hfix : normalizePre t = t ∧ validateMatch t = true := by
      rcases sub6_shape (normalizePre s) hnl with
        he | ⟨pre, w, ds, tail, hsp, hw, hdsne, hdig, hs6⟩
      · have ht : t = normalizePre s := by rw [← h, he]
        rw [ht]
        exact ⟨normalizePre_fix htl hsb hna hnc hlast hlr hv, hv⟩
      · have ht : t = pre ++ 'P' :: 's' :: 'a' :: ' ' :: ds := by rw [← h, hs6]
        rw [hsp] at htl hsb hna hnc hv hlr
        obtain ⟨hvq, hlrq⟩ := validate_shape hw hdsne hdig hv hlr
        rw [ht]
        exact ⟨normalizePre_fix (titled_shape htl hdig) (spacesBlank_shape hsb hdig)
          (noAdjSpace_shape hna hdig) (noColonSpace_shape hnc hdig)
          (lastNonWs_shape hdsne hdig) hlrq hvq, hvq⟩
    show (if validateMatch (normalizePre t) then Except.ok (sub6 (normalizePre t))
      else Except.error (normalizePre t)) = Except.ok t
    rw [hfix.1, if_pos hfix.2, hsub6]
  · rw [if_neg hv] at h
    exact absurd h (by simp)

/-- C3 witness: `normalize("psa 23:1") = "Psa 23"`, and re-normalizing that
output returns it unchanged. -/
theorem normalize_idempotent_witness :
    scripture_format_validator "psa 23:1".toList = Except.ok "Psa 23".toList ∧
      scripture_format_validator "Psa 23".toList = Except.ok "Psa 23".toList :=
  ⟨rfl, normalize_idempotent "psa 23:1".toList "Psa 23".toList rfl⟩

end RelVerse
